import Mathlib

/-!
Verification of the Itoyori distributed shared-memory runtime core.

This file shallowly embeds the arithmetic and state-passing content of:
* `ityr::ori::mem_mapper` (block / cyclic / reverse-block policies),
* `ityr::common::reserve_same_vm_coll` (collective virtual-memory reservation),
* `ityr::checkout_span` (scoped checkout handles),
* `ityr::internal::parallel_reduce_generic` (DSM callbacks around spawned tasks),
and proves the specification claims about them.

C++ `std::size_t` values are modelled as `Nat` (they stay far below 2^64 in all
claims, and the C++ arithmetic involved never wraps), rank indices as `Nat`.
-/

namespace mem_mapper

/-- `ityr::ori::mem_mapper::segment`: owner plus `[offset_b, offset_e)` and the
physical offset of the block range inside the owner's local memory. -/
structure segment where
  owner : Nat
  offset_b : Nat
  offset_e : Nat
  pm_offset : Nat
deriving DecidableEq

/-- The `block` policy object: template parameter `BlockSize` and the
constructor arguments `size`, `n_inter_ranks` (the NUMA-level members play no
role in the claims and are omitted). -/
structure block where
  blockSize : Nat
  size : Nat
  n_inter_ranks : Nat

/-- `n_blk_ = (size + BlockSize - 1) / BlockSize` from the constructor. -/
def block.n_blk (m : block) : Nat := (m.size + m.blockSize - 1) / m.blockSize

/-- `block::get_seg_range`: ceiling-divided block id range of a segment. -/
def block.get_seg_range (m : block) (seg_id : Nat) : Nat × Nat :=
  ((seg_id * m.n_blk + m.n_inter_ranks - 1) / m.n_inter_ranks,
   ((seg_id + 1) * m.n_blk + m.n_inter_ranks - 1) / m.n_inter_ranks)

/-- `block::local_size`. -/
def block.local_size (m : block) (inter_rank : Nat) : Nat :=
  let r := m.get_seg_range inter_rank
  max 1 (r.2 - r.1) * m.blockSize

/-- `block::effective_size`. -/
def block.effective_size (m : block) : Nat := m.n_blk * m.blockSize

/-- `block::get_segment`. -/
def block.get_segment (m : block) (offset : Nat) : segment :=
  let blk_id := offset / m.blockSize
  let seg_id := blk_id * m.n_inter_ranks / m.n_blk
  let r := m.get_seg_range seg_id
  ⟨seg_id, r.1 * m.blockSize, r.2 * m.blockSize, 0⟩

/-- The `cyclic` policy object (`seg_size` is the constructor argument, checked
there to be a positive multiple of `blockSize`). -/
structure cyclic where
  blockSize : Nat
  size : Nat
  n_inter_ranks : Nat
  seg_size : Nat

/-- `cyclic::local_size_impl`. -/
def cyclic.local_size_impl (m : cyclic) : Nat :=
  let n_blk_g := (m.size + m.seg_size - 1) / m.seg_size
  let n_blk_l := (n_blk_g + m.n_inter_ranks - 1) / m.n_inter_ranks
  n_blk_l * m.seg_size

/-- `cyclic::local_size` (independent of the rank argument). -/
def cyclic.local_size (m : cyclic) (_inter_rank : Nat) : Nat := m.local_size_impl

/-- `cyclic::effective_size`. -/
def cyclic.effective_size (m : cyclic) : Nat := m.local_size_impl * m.n_inter_ranks

/-- `cyclic::get_segment`. -/
def cyclic.get_segment (m : cyclic) (offset : Nat) : segment :=
  let blk_id_g := offset / m.seg_size
  let blk_id_l := blk_id_g / m.n_inter_ranks
  ⟨blk_id_g % m.n_inter_ranks,
   blk_id_g * m.seg_size,
   (blk_id_g + 1) * m.seg_size,
   blk_id_l * m.seg_size⟩

/-- The `block_adws` (reverse-block) policy object. -/
structure block_adws where
  blockSize : Nat
  size : Nat
  n_inter_ranks : Nat

/-- `n_blk_` of `block_adws`. -/
def block_adws.n_blk (m : block_adws) : Nat := (m.size + m.blockSize - 1) / m.blockSize

/-- `block_adws::get_seg_range`: floor-divided block id range of a segment. -/
def block_adws.get_seg_range (m : block_adws) (seg_id : Nat) : Nat × Nat :=
  (seg_id * m.n_blk / m.n_inter_ranks,
   (seg_id + 1) * m.n_blk / m.n_inter_ranks)

/-- `block_adws::local_size`. -/
def block_adws.local_size (m : block_adws) (inter_rank : Nat) : Nat :=
  let seg_id := m.n_inter_ranks - inter_rank - 1
  let r := m.get_seg_range seg_id
  max 1 (r.2 - r.1) * m.blockSize

/-- `block_adws::effective_size`. -/
def block_adws.effective_size (m : block_adws) : Nat := m.n_blk * m.blockSize

/-- `block_adws::get_segment`. -/
def block_adws.get_segment (m : block_adws) (offset : Nat) : segment :=
  let blk_id := offset / m.blockSize
  let seg_id := ((blk_id + 1) * m.n_inter_ranks + m.n_blk - 1) / m.n_blk - 1
  let r := m.get_seg_range seg_id
  ⟨m.n_inter_ranks - seg_id - 1, r.1 * m.blockSize, r.2 * m.blockSize, 0⟩

end mem_mapper

namespace cspan

/-- Observable DSM operations issued by a `checkout_span`: `ori::checkout`
and `ori::checkin`, each carrying the raw pointer and the element count. -/
inductive Ev where
  | checkout : Nat → Nat → Ev
  | checkin : Nat → Nat → Ev
deriving DecidableEq

/-- The state of an `ityr::checkout_span`: `ptr_` (`none` models `nullptr`)
and `n_`. -/
structure checkout_span where
  ptr : Option Nat
  n : Nat
deriving DecidableEq

/-- The constructor `checkout_span(gptr, n, Mode)`:
`ptr_((gptr && n > 0) ? ori::checkout(gptr, n, Mode{}) : nullptr), n_(n)`.
`gptr = none` models a null global pointer; `co` abstracts the (non-null)
local pointer `ori::checkout` returns. Returns the span and the list of DSM
operations performed. -/
def mk_span (gptr : Option Nat) (n : Nat) (co : Nat) : checkout_span × List Ev :=
  if gptr.isSome ∧ 0 < n then (⟨some co, n⟩, [.checkout co n]) else (⟨none, n⟩, [])

/-- The constructor's assertion
`ITYR_CHECK(((ptr_ && n_ > 0) || (!ptr_ && n == 0)))`. -/
def ctor_check (s : checkout_span) (n : Nat) : Bool :=
  (s.ptr.isSome && decide (0 < s.n)) || (s.ptr.isNone && decide (n = 0))

/-- The constructor together with its assertion: `none` models an assertion
failure (fatal in checked builds). -/
def mk_span_checked (gptr : Option Nat) (n : Nat) (co : Nat) :
    Option (checkout_span × List Ev) :=
  let r := mk_span gptr n co
  if ctor_check r.1 n then some r else none

/-- `checkout_span::destroy` (called by the destructor):
`if (ptr_) ori::checkin(ptr_, n_, Mode{})`. Returns the operations issued. -/
def destroy (s : checkout_span) : List Ev :=
  match s.ptr with
  | some p => [.checkin p s.n]
  | none => []

/-- Move construction `checkout_span(checkout_span&& cs)`: copies `ptr_`/`n_`
and nulls the source. Returns `(the new span, the moved-from span)`. -/
def moveCtor (s : checkout_span) : checkout_span × checkout_span :=
  (⟨s.ptr, s.n⟩, ⟨none, 0⟩)

/-- Move assignment `operator=(checkout_span&& cs)`: `destroy()` on the
destination, then take the source's fields and null the source. Returns
`(the assigned-to span, the moved-from span, the operations issued)`. -/
def moveAssign (dst src : checkout_span) : checkout_span × checkout_span × List Ev :=
  (⟨src.ptr, src.n⟩, ⟨none, 0⟩, destroy dst)

/-- `checkout_span::checkin()`:
`if (ptr_) { ori::checkin(ptr_, n_, Mode{}); ptr_ = nullptr; n_ = 0; }`. -/
def checkin (s : checkout_span) : checkout_span × List Ev :=
  match s.ptr with
  | some p => (⟨none, 0⟩, [.checkin p s.n])
  | none => (s, [])

/-- `checkout_span::data()`. -/
def data (s : checkout_span) : Option Nat := s.ptr

end cspan

namespace vm_reserve

/-- A mapped virtual-memory region `(addr, size)`. -/
abbrev Region := Nat × Nat

/-- The overlap test used on previously reserved regions in
`reserve_same_vm_coll`:
`prev.addr < vm_addr + alloc_size && vm_addr < prev.addr + prev.size`. -/
def overlapsB (prev cur : Region) : Bool :=
  decide (prev.1 < cur.1 + cur.2) && decide (cur.1 < prev.1 + prev.2)

/-- Per-rank state inside `reserve_same_vm_coll`: the current `virtual_mem vm`
(`none` models a default/moved-from `virtual_mem`) and the `prev_vms` vector
(`none` entries model entries overwritten by `virtual_mem()`). -/
structure RankSt where
  vm : Option Region
  prev_vms : List (Option Region)
deriving DecidableEq

/-- The state carried from one loop iteration to the next: the leader rank,
the current `alloc_size`, and every rank's local state. -/
structure St where
  leader : Nat
  alloc_size : Nat
  ranks : Nat → RankSt

/-- The follower's pre-attempt step: overwrite (destroy) every `prev_vms`
entry overlapping the broadcast region `cur`. -/
def freeOverlapping (cur : Region) (prevs : List (Option Region)) : List (Option Region) :=
  prevs.map fun e =>
    match e with
    | some reg => if overlapsB reg cur then none else some reg
    | none => none

/-- The regions mapped in a rank's address space, deciding whether a
`MAP_FIXED_NOREPLACE` mmap fails: foreign (OS / other library) mappings plus
this library's own live reservations. -/
def occupied (foreignR : List Region) (vm : Option Region) (prevs : List (Option Region)) :
    List Region :=
  foreignR ++ prevs.filterMap id ++ vm.toList

/-- `mmap(addr, ..., MAP_FIXED_NOREPLACE, ...)` fails (EEXIST) precisely when
the requested region overlaps an existing mapping. -/
def followerFails (occ : List Region) (cur : Region) : Bool :=
  occ.any fun r => overlapsB r cur

/-- Whether rank `r`'s fixed-address mapping attempt of `cur` fails this
round (evaluated after its overlapping `prev_vms` were freed). -/
def fails (foreignT : Nat → List Region) (st : St) (cur : Region) (r : Nat) : Bool :=
  followerFails
    (occupied (foreignT r) (st.ranks r).vm (freeOverlapping cur (st.ranks r).prev_vms))
    cur

/-- The ranks whose `failed_rank` value is their own rank (everyone else
contributes `-1` to the MAX reduction). -/
def failed_ranks (R : Nat) (foreignT : Nat → List Region) (st : St) (cur : Region) :
    List Nat :=
  (List.range R).filter fun r => decide (r ≠ st.leader) && fails foreignT st cur r

/-- Maximum of a list of ranks (the `MPI_MAX` allreduce over failed ranks). -/
def listMax : List Nat → Nat
  | [] => 0
  | a :: l => max a (listMax l)

/-- `vm.shrink(size)`: keep the address, truncate to `size`. -/
def shrinkVm (v : Option Region) (size : Nat) : Region :=
  match v with
  | some (ad, _) => (ad, size)
  | none => (0, 0)

/-- Result of one iteration of the retry loop of `reserve_same_vm_coll`:
`done = some f` means the round succeeded and rank `r` returns region `f r`;
otherwise `next` is the state entering the next iteration. -/
structure RoundRes where
  done : Option (Nat → Region)
  next : St

/-- One iteration of the retry loop of `reserve_same_vm_coll` at broadcast
address `a` (the address the leader's anonymous mmap returned, kept as an
oracle parameter): the leader installs its fresh mapping; every follower
frees overlapping earlier reservations and attempts a fixed-address
no-replace mapping; the failed ranks are collected by a MAX reduction; on
no failure every rank shrinks its mapping to `size` and returns, otherwise
the maximum failed rank becomes leader, `alloc_size` doubles (capped at
`allocMax`) and the non-failed ranks defer their current mapping into
`prev_vms`. -/
def round (R size allocMax : Nat) (foreignT : Nat → List Region) (a : Nat) (st : St) :
    RoundRes :=
  let cur : Region := (a, st.alloc_size)
  let afterAttempt : Nat → RankSt := fun r =>
    if r = st.leader then { vm := some cur, prev_vms := (st.ranks r).prev_vms }
    else
      let pv := freeOverlapping cur (st.ranks r).prev_vms
      if fails foreignT st cur r then { vm := (st.ranks r).vm, prev_vms := pv }
      else { vm := some cur, prev_vms := pv }
  let fl := failed_ranks R foreignT st cur
  if fl = [] then
    { done := some fun r => shrinkVm (afterAttempt r).vm size, next := st }
  else
    { done := none,
      next :=
        { leader := listMax fl,
          alloc_size := min allocMax (2 * st.alloc_size),
          ranks := fun r =>
            let s := afterAttempt r
            if r ≠ st.leader ∧ fails foreignT st cur r then s
            else { vm := none, prev_vms := s.prev_vms ++ [s.vm] } } }

/-- The retry loop (`for n_trial = 0; n_trial <= max_trial; ...`), with the
remaining number of iterations as fuel; running out of fuel models the
`die(...)` call after the loop. -/
def reserve_loop (R size allocMax : Nat) (foreign : Nat → Nat → List Region)
    (addr : Nat → Nat) : Nat → Nat → St → Option (Nat → Region)
  | 0, _, _ => none
  | fuel + 1, t, st =>
    let rr := round R size allocMax (foreign t) (addr t) st
    match rr.done with
    | some res => some res
    | none => reserve_loop R size allocMax foreign addr fuel (t + 1) rr.next

/-- The state on entry to the loop: leader rank 0, initial allocation size
`alloc0` (the page-rounded requested size), no reservations anywhere. -/
def init (alloc0 : Nat) : St :=
  { leader := 0, alloc_size := alloc0, ranks := fun _ => ⟨none, []⟩ }

/-- `reserve_same_vm_coll(size)`: `alloc0` stands for
`round_up_pow2(size, get_page_size())`; the cap is
`max(alloc0, 2^40)`; `max_trial = 100`, so the loop body runs at most 101
times (trials 0..100). The oracles: `foreign t r` is the set of foreign
mappings in rank `r`'s address space at trial `t`; `addr t` is the address
returned by the trial-`t` leader's anonymous mmap. -/
def reserve_same_vm_coll (R size alloc0 : Nat) (foreign : Nat → Nat → List Region)
    (addr : Nat → Nat) : Option (Nat → Region) :=
  reserve_loop R size (max alloc0 (2 ^ 40)) foreign addr 101 0 (init alloc0)

/-- The sequence of states the loop passes through (whether or not it has
already returned; used to phrase theorems about the trajectory). -/
def trajectory (R size allocMax : Nat) (foreign : Nat → Nat → List Region)
    (addr : Nat → Nat) (alloc0 : Nat) : Nat → St
  | 0 => init alloc0
  | k + 1 =>
    (round R size allocMax (foreign k) (addr k)
      (trajectory R size allocMax foreign addr alloc0 k)).next

end vm_reserve

namespace preduce

/-- A callback value handed to `ito::thread` via `ito::with_callback`. -/
inductive Cb where
  | acquireH : Nat → Cb
  | release : Cb
deriving DecidableEq

/-- Events of the instrumented execution of `parallel_reduce_generic` on one
worker: scheduler polls, task-group brackets, thread spawn (with its thread
id and the two `ito::with_callback` callbacks), join, the DSM operations
`ori::release_lazy()` (with the handle it returns), `ori::release()`,
`ori::acquire()`, the serial base case, and `combine_op`. -/
inductive Ev where
  | poll : Ev
  | tgBegin : Ev
  | spawn : Nat → Cb → Cb → Ev
  | join : Nat → Ev
  | relLazy : Nat → Ev
  | rel : Ev
  | acq : Ev
  | tgEnd : Ev
  | base : Nat → Nat → Ev
  | combine : Ev
deriving DecidableEq

/-- Fresh-name counters threaded through the parent's execution: `h` for
release handles, `t` for thread ids. -/
structure Ctr where
  h : Nat
  t : Nat
deriving DecidableEq

/-- The parent-side event trace of
`parallel_reduce_generic(policy, ..., acc, rh, first, last, ...)` over the
index range `[first, first + n)` with release handle `rh`.
`ser tid` is the scheduler's choice whether the thread `tid` was serialized
(executed inline) or migrated. A serialized child's body runs inline, so its
trace appears between the spawn and the join; a migrated child runs on
another worker, so only its spawn record (with the `ori::acquire(rh)`
on-enter and `ori::release()` on-exit callbacks it was created with) appears
here. `fuel` bounds the recursion depth; an exhausted fuel emits nothing. -/
def parallel_reduce_generic (cutoff : Nat) (ser : Nat → Bool) :
    Nat → Nat → Nat → Nat → Ctr → List Ev × Ctr
  | 0, _, _, _, c => ([], c)
  | fuel + 1, first, n, rh, c =>
    if n ≤ cutoff then ([.poll, .base first n], c)
    else
      let mid := n / 2
      let tid := c.t
      let c1 : Ctr := ⟨c.h, c.t + 1⟩
      if ser tid then
        let L := parallel_reduce_generic cutoff ser fuel first mid rh c1
        let Rr := parallel_reduce_generic cutoff ser fuel (first + mid) (n - mid) rh L.2
        ([.poll, .tgBegin, .spawn tid (.acquireH rh) .release] ++ L.1 ++ [.join tid]
          ++ Rr.1 ++ [.tgEnd], Rr.2)
      else
        let h2 := c.h
        let c2 : Ctr := ⟨c.h + 1, c.t + 1⟩
        let Rr := parallel_reduce_generic cutoff ser fuel (first + mid) (n - mid) h2 c2
        ([.poll, .tgBegin, .spawn tid (.acquireH rh) .release, .relLazy h2]
          ++ Rr.1 ++ [.rel, .join tid, .tgEnd, .acq, .combine], Rr.2)

end preduce

/-- Any dividend is below the next multiple of the divisor. -/
theorem nat_lt_succ_div_mul (a b : Nat) (hb : 0 < b) : a < (a / b + 1) * b := by
  calc a = b * (a / b) + a % b := (Nat.div_add_mod a b).symm
    _ < b * (a / b) + b := Nat.add_lt_add_left (Nat.mod_lt a hb) _
    _ = (a / b + 1) * b := by ring

/-- Ceiling division `⌈x/R⌉ = (x + R - 1) / R` is at most `y` when `x ≤ y·R`. -/
theorem nat_ceil_le {x y R : Nat} (hR : 0 < R) (h : x ≤ y * R) : (x + R - 1) / R ≤ y := by
  have h1 : x + R - 1 ≤ y * R + (R - 1) := by omega
  have h2 : (y * R + (R - 1)) / R ≤ y := by
    rw [mul_comm, Nat.mul_add_div hR, Nat.div_eq_of_lt (by omega)]
    omega
  exact le_trans (Nat.div_le_div_right h1) h2

/-- `⌈x/R⌉ · R ≥ x`. -/
theorem nat_le_ceil_mul {x R : Nat} (hR : 0 < R) : x ≤ (x + R - 1) / R * R := by
  have h := nat_lt_succ_div_mul (x + R - 1) R hR
  rw [Nat.succ_mul] at h
  omega

/-- `y < ⌈x/R⌉` when `y·R < x`. -/
theorem nat_lt_ceil {x y R : Nat} (hR : 0 < R) (h : y * R < x) : y < (x + R - 1) / R := by
  rw [Nat.lt_iff_add_one_le, Nat.le_div_iff_mul_le hR]
  have h2 : (y + 1) * R = y * R + R := by ring
  omega

/-- `⌈x/R⌉ · R ≤ x + R - 1`. -/
theorem nat_ceil_mul_le {x R : Nat} : (x + R - 1) / R * R ≤ x + R - 1 := Nat.div_mul_le_self _ _

/-- A size of exactly `k` blocks yields `k` blocks after ceiling division. -/
theorem nblk_mul (B k : Nat) (hB : 0 < B) : (k * B + B - 1) / B = k := by
  have h1 : k * B + B - 1 = B * k + (B - 1) := by
    have := Nat.mul_comm k B
    omega
  rw [h1, Nat.mul_add_div hB, Nat.div_eq_of_lt (by omega)]
  omega

/-- The last byte of `k` blocks lies in block `k - 1`. -/
theorem pred_div (B k : Nat) (hB : 0 < B) (hk : 0 < k) : (k * B - 1) / B = k - 1 := by
  have h2 : (k - 1) * B = k * B - B := by
    have := Nat.sub_mul k 1 B
    omega
  have h3 : B ≤ B * k := Nat.le_mul_of_pos_right B hk
  have h4 := Nat.mul_comm k B
  have h1 : k * B - 1 = B * (k - 1) + (B - 1) := by
    have h5 := Nat.mul_comm (k - 1) B
    omega
  rw [h1, Nat.mul_add_div hB, Nat.div_eq_of_lt (by omega)]
  omega

/-- Claim C1: for the block mapper policy with block size `B`,
`N = ⌈size/B⌉` blocks and `R` ranks, for every offset `o < N·B`,
`get_segment(o)` returns owner `r = ⌊(o/B)·R/N⌋`, block range
`[⌈r·N/R⌉·B, ⌈(r+1)·N/R⌉·B)` and physical offset 0; `local_size(r) =
max(1, ⌈(r+1)·N/R⌉ − ⌈r·N/R⌉)·B`; and for `size = 14·B`, `R = 4` the
segments at offsets `0`, `5B`, `14B−1` are `{0,[0,4B),0}`, `{1,[4B,7B),0}`,
`{3,[11B,14B),0}` and the local shares are `4B, 3B, 4B, 3B`. -/
theorem C1_block_mapper :
    (∀ B size R o, 0 < B → 0 < R →
      o < (mem_mapper.block.mk B size R).effective_size →
      (mem_mapper.block.mk B size R).get_segment o =
        ⟨o / B * R / ((size + B - 1) / B),
         (o / B * R / ((size + B - 1) / B) * ((size + B - 1) / B) + R - 1) / R * B,
         ((o / B * R / ((size + B - 1) / B) + 1) * ((size + B - 1) / B) + R - 1) / R * B,
         0⟩) ∧
    (∀ B size R r,
      (mem_mapper.block.mk B size R).local_size r =
        max 1 (((r + 1) * ((size + B - 1) / B) + R - 1) / R
                - (r * ((size + B - 1) / B) + R - 1) / R) * B) ∧
    (∀ B, 0 < B →
      (mem_mapper.block.mk B (14 * B) 4).get_segment 0 = ⟨0, 0, 4 * B, 0⟩ ∧
      (mem_mapper.block.mk B (14 * B) 4).get_segment (5 * B) = ⟨1, 4 * B, 7 * B, 0⟩ ∧
      (mem_mapper.block.mk B (14 * B) 4).get_segment (14 * B - 1) = ⟨3, 11 * B, 14 * B, 0⟩ ∧
      (mem_mapper.block.mk B (14 * B) 4).local_size 0 = 4 * B ∧
      (mem_mapper.block.mk B (14 * B) 4).local_size 1 = 3 * B ∧
      (mem_mapper.block.mk B (14 * B) 4).local_size 2 = 4 * B ∧
      (mem_mapper.block.mk B (14 * B) 4).local_size 3 = 3 * B) := by
  refine ⟨fun B size R o _ _ _ => rfl, fun B size R r => rfl, fun B hB => ?_⟩
  have hN : (14 * B + B - 1) / B = 14 := nblk_mul B 14 hB
  have h5 : 5 * B / B = 5 := Nat.mul_div_cancel 5 hB
  have h13 : (14 * B - 1) / B = 13 := by
    rw [pred_div B 14 hB (by norm_num)]
  refine ⟨?_, ?_, ?_, ?_, ?_, ?_, ?_⟩ <;>
    simp only [mem_mapper.block.get_segment, mem_mapper.block.get_seg_range,
      mem_mapper.block.local_size, mem_mapper.block.n_blk, mem_mapper.segment.mk.injEq,
      hN, h5, h13, Nat.zero_div] <;> norm_num

/-- Claim C2: for the cyclic mapper policy with segment size `S`, for every
offset `o < effective_size()`, `get_segment(o)` returns owner `g mod R`,
range `[g·S, (g+1)·S)` and physical offset `(g/R)·S` where `g = o/S`; every
rank's `local_size` is `⌈⌈size/S⌉/R⌉·S`; and with 4 ranks, `S > 2` a
multiple of the block size, and `size = 12·S`: `get_segment(5S+2) =
{owner 1, [5S, 6S), S}` and each rank's local size is `3·S`. -/
theorem C2_cyclic_mapper :
    (∀ B size R S o, 0 < S →
      o < (mem_mapper.cyclic.mk B size R S).effective_size →
      (mem_mapper.cyclic.mk B size R S).get_segment o =
        ⟨o / S % R, o / S * S, (o / S + 1) * S, o / S / R * S⟩) ∧
    (∀ B size R S r,
      (mem_mapper.cyclic.mk B size R S).local_size r =
        ((size + S - 1) / S + R - 1) / R * S) ∧
    (∀ B S, 2 < S →
      (mem_mapper.cyclic.mk B (12 * S) 4 S).get_segment (5 * S + 2) =
        ⟨1, 5 * S, 6 * S, S⟩ ∧
      ∀ r, (mem_mapper.cyclic.mk B (12 * S) 4 S).local_size r = 3 * S) := by
  refine ⟨fun B size R S o _ _ => rfl, fun B size R S r => rfl, fun B S hS => ?_⟩
  have hS0 : 0 < S := by omega
  have hg : (5 * S + 2) / S = 5 := by
    have h1 : 5 * S + 2 = S * 5 + 2 := by ring
    rw [h1, Nat.mul_add_div hS0, Nat.div_eq_of_lt (by omega)]
  have hN : (12 * S + S - 1) / S = 12 := nblk_mul S 12 hS0
  constructor
  · simp only [mem_mapper.cyclic.get_segment, mem_mapper.segment.mk.injEq, hg]
    norm_num
  · intro r
    simp only [mem_mapper.cyclic.local_size, mem_mapper.cyclic.local_size_impl, hN]

/-- Witness for C1 at concrete inputs. -/
theorem C1_block_mapper_witness :
    (0 : Nat) < 2 ∧
    (mem_mapper.block.mk 2 30 4).get_segment 9 = ⟨1, 8, 16, 0⟩ ∧
    (mem_mapper.block.mk 2 (14 * 2) 4).get_segment (5 * 2) = ⟨1, 4 * 2, 7 * 2, 0⟩ :=
  ⟨by decide,
   (C1_block_mapper.1 2 30 4 9 (by decide) (by decide) (by decide)).trans (by decide),
   (C1_block_mapper.2.2 2 (by decide)).2.1⟩

/-- Witness for C2 at concrete inputs. -/
theorem C2_cyclic_mapper_witness :
    (2 : Nat) < 4 ∧
    (mem_mapper.cyclic.mk 1 (12 * 4) 4 4).get_segment (5 * 4 + 2) = ⟨1, 5 * 4, 6 * 4, 4⟩ ∧
    (mem_mapper.cyclic.mk 1 40 4 4).get_segment 10 = ⟨2, 8, 12, 0⟩ :=
  ⟨by decide,
   (C2_cyclic_mapper.2.2 1 4 (by decide)).1,
   (C2_cyclic_mapper.1 1 40 4 4 10 (by decide) (by decide)).trans (by decide)⟩

/-- Claim C3: for each of the three mapper policies, every offset below
`effective_size()` yields a segment with `offset_b ≤ offset < offset_e` and
`(offset_e − offset_b) mod B = 0` (for cyclic, `B` divides the configured
segment size, as the constructor asserts). -/
theorem C3_segment_invariant :
    (∀ B size R o, 0 < B → 0 < R →
      o < (mem_mapper.block.mk B size R).effective_size →
      ((mem_mapper.block.mk B size R).get_segment o).offset_b ≤ o ∧
      o < ((mem_mapper.block.mk B size R).get_segment o).offset_e ∧
      (((mem_mapper.block.mk B size R).get_segment o).offset_e
        - ((mem_mapper.block.mk B size R).get_segment o).offset_b) % B = 0) ∧
    (∀ B size R S o, 0 < S → B ∣ S →
      o < (mem_mapper.cyclic.mk B size R S).effective_size →
      ((mem_mapper.cyclic.mk B size R S).get_segment o).offset_b ≤ o ∧
      o < ((mem_mapper.cyclic.mk B size R S).get_segment o).offset_e ∧
      (((mem_mapper.cyclic.mk B size R S).get_segment o).offset_e
        - ((mem_mapper.cyclic.mk B size R S).get_segment o).offset_b) % B = 0) ∧
    (∀ B size R o, 0 < B → 0 < R →
      o < (mem_mapper.block_adws.mk B size R).effective_size →
      ((mem_mapper.block_adws.mk B size R).get_segment o).offset_b ≤ o ∧
      o < ((mem_mapper.block_adws.mk B size R).get_segment o).offset_e ∧
      (((mem_mapper.block_adws.mk B size R).get_segment o).offset_e
        - ((mem_mapper.block_adws.mk B size R).get_segment o).offset_b) % B = 0) := by
  refine ⟨fun B size R o hB hR ho => ?_, fun B size R S o hS hBS ho => ?_,
    fun B size R o hB hR ho => ?_⟩
  · have ho' : o < (size + B - 1) / B * B := ho
    simp only [mem_mapper.block.get_segment, mem_mapper.block.get_seg_range,
      mem_mapper.block.n_blk]
    set N := (size + B - 1) / B with hN_def
    have hN : 0 < N := by
      rcases Nat.eq_zero_or_pos N with h0 | h
      · rw [h0] at ho'; simp at ho'
      · exact h
    set b := o / B with hb_def
    have h1 : b * R / N * N ≤ b * R := Nat.div_mul_le_self (b * R) N
    have h2 : b * R < (b * R / N + 1) * N := nat_lt_succ_div_mul (b * R) N hN
    have h3 : (b * R / N * N + R - 1) / R ≤ b := nat_ceil_le hR h1
    have h5 : b * B ≤ o := Nat.div_mul_le_self o B
    have h6 : b < ((b * R / N + 1) * N + R - 1) / R := nat_lt_ceil hR h2
    have h7 : o < (b + 1) * B := nat_lt_succ_div_mul o B hB
    refine ⟨le_trans (Nat.mul_le_mul_right B h3) h5,
      lt_of_lt_of_le h7 (Nat.mul_le_mul_right B h6), ?_⟩
    rw [← Nat.sub_mul]
    exact Nat.mul_mod_left _ _
  · simp only [mem_mapper.cyclic.get_segment]
    obtain ⟨k, hk⟩ := hBS
    refine ⟨Nat.div_mul_le_self o S, nat_lt_succ_div_mul o S hS, ?_⟩
    have hsub : (o / S + 1) * S - o / S * S = S := by
      have hx : (o / S + 1) * S = o / S * S + S := by ring
      omega
    rw [hsub, hk]
    exact Nat.mul_mod_right B k
  · have ho' : o < (size + B - 1) / B * B := ho
    simp only [mem_mapper.block_adws.get_segment, mem_mapper.block_adws.get_seg_range,
      mem_mapper.block_adws.n_blk]
    set N := (size + B - 1) / B with hN_def
    have hN : 0 < N := by
      rcases Nat.eq_zero_or_pos N with h0 | h
      · rw [h0] at ho'; simp at ho'
      · exact h
    set b := o / B with hb_def
    set c := ((b + 1) * R + N - 1) / N with hc_def
    have hbR : 0 < (b + 1) * R := Nat.mul_pos (Nat.succ_pos b) hR
    have hc1 : 0 < c := by
      have := @nat_lt_ceil ((b + 1) * R) 0 N hN (by omega)
      omega
    have hcu : (b + 1) * R ≤ c * N := nat_le_ceil_mul hN
    have hcl : c * N ≤ (b + 1) * R + N - 1 := nat_ceil_mul_le
    have hexp : c * N = (c - 1) * N + N := by
      have := Nat.sub_mul c 1 N
      have : N ≤ c * N := Nat.le_mul_of_pos_left N hc1
      omega
    have hsN : (c - 1) * N < (b + 1) * R := by omega
    have h3 : (c - 1) * N / R ≤ b := by
      have := (@Nat.div_lt_iff_lt_mul R ((c - 1) * N) (b + 1) hR).mpr hsN
      omega
    have h6 : b + 1 ≤ (c - 1 + 1) * N / R := by
      rw [Nat.le_div_iff_mul_le hR]
      have hone : c - 1 + 1 = c := by omega
      rw [hone]
      exact hcu
    have h5 : b * B ≤ o := Nat.div_mul_le_self o B
    have h7 : o < (b + 1) * B := nat_lt_succ_div_mul o B hB
    refine ⟨le_trans (Nat.mul_le_mul_right B h3) h5,
      lt_of_lt_of_le h7 (Nat.mul_le_mul_right B h6), ?_⟩
    rw [← Nat.sub_mul]
    exact Nat.mul_mod_left _ _

/-- Witness for C3 at concrete inputs. -/
theorem C3_segment_invariant_witness :
    ((0 : Nat) < 2 ∧ (0 : Nat) < 4 ∧ 9 < (mem_mapper.block.mk 2 28 4).effective_size ∧
      ((mem_mapper.block.mk 2 28 4).get_segment 9).offset_b ≤ 9 ∧
      9 < ((mem_mapper.block.mk 2 28 4).get_segment 9).offset_e ∧
      (((mem_mapper.block.mk 2 28 4).get_segment 9).offset_e
        - ((mem_mapper.block.mk 2 28 4).get_segment 9).offset_b) % 2 = 0) ∧
    (((2 : Nat) ∣ 4) ∧
      ((mem_mapper.cyclic.mk 2 40 4 4).get_segment 10).offset_b ≤ 10 ∧
      10 < ((mem_mapper.cyclic.mk 2 40 4 4).get_segment 10).offset_e ∧
      (((mem_mapper.cyclic.mk 2 40 4 4).get_segment 10).offset_e
        - ((mem_mapper.cyclic.mk 2 40 4 4).get_segment 10).offset_b) % 2 = 0) ∧
    (((mem_mapper.block_adws.mk 2 28 4).get_segment 9).offset_b ≤ 9 ∧
      9 < ((mem_mapper.block_adws.mk 2 28 4).get_segment 9).offset_e ∧
      (((mem_mapper.block_adws.mk 2 28 4).get_segment 9).offset_e
        - ((mem_mapper.block_adws.mk 2 28 4).get_segment 9).offset_b) % 2 = 0) :=
  ⟨⟨by decide, by decide, by decide,
    C3_segment_invariant.1 2 28 4 9 (by decide) (by decide) (by decide)⟩,
   ⟨by decide, C3_segment_invariant.2.1 2 40 4 4 10 (by decide) (by decide) (by decide)⟩,
   C3_segment_invariant.2.2 2 28 4 9 (by decide) (by decide) (by decide)⟩

/-- Block-unit bounds transfer to byte bounds. -/
theorem byte_range_of_blk_range {lo hi b B o : Nat} (hB : 0 < B) (hb : b = o / B)
    (h1 : lo ≤ b) (h2 : b < hi) : lo * B ≤ o ∧ o < hi * B := by
  subst hb
  exact ⟨le_trans (Nat.mul_le_mul_right B h1) (Nat.div_mul_le_self o B),
    lt_of_lt_of_le (nat_lt_succ_div_mul o B hB) (Nat.mul_le_mul_right B h2)⟩

/-- Byte bounds transfer back to block-unit bounds. -/
theorem blk_range_of_byte_range {lo hi B o : Nat} (hB : 0 < B)
    (h1 : lo * B ≤ o) (h2 : o < hi * B) : lo ≤ o / B ∧ o / B < hi :=
  ⟨(Nat.le_div_iff_mul_le hB).mpr h1, (Nat.div_lt_iff_lt_mul hB).mpr h2⟩

/-- A block id `b` lies in the ceiling-divided range of segment `s` (the
`block` policy's `get_seg_range`) exactly when `s = ⌊b·R/N⌋`. -/
theorem block_range_iff (N R b s : Nat) (hR : 0 < R) (hN : 0 < N) :
    ((s * N + R - 1) / R ≤ b ∧ b < ((s + 1) * N + R - 1) / R) ↔ s = b * R / N := by
  constructor
  · rintro ⟨h1, h2⟩
    have ha : s * N ≤ (s * N + R - 1) / R * R := nat_le_ceil_mul hR
    have hb2 : (s * N + R - 1) / R * R ≤ b * R := Nat.mul_le_mul_right R h1
    have hsb : s * N ≤ b * R := le_trans ha hb2
    have hc : (b + 1) * R ≤ ((s + 1) * N + R - 1) / R * R :=
      Nat.mul_le_mul_right R (Nat.succ_le_of_lt h2)
    have hd : ((s + 1) * N + R - 1) / R * R ≤ (s + 1) * N + R - 1 := nat_ceil_mul_le
    have hexp : (b + 1) * R = b * R + R := by ring
    have hbrs : b * R < (s + 1) * N := by omega
    have hs1 : s ≤ b * R / N := (Nat.le_div_iff_mul_le hN).mpr hsb
    have hs2 : b * R / N < s + 1 := (Nat.div_lt_iff_lt_mul hN).mpr hbrs
    omega
  · rintro rfl
    exact ⟨nat_ceil_le hR (Nat.div_mul_le_self (b * R) N),
      nat_lt_ceil hR (nat_lt_succ_div_mul (b * R) N hN)⟩

/-- A block id `b` lies in the floor-divided range of segment `s` (the
`block_adws` policy's `get_seg_range`) exactly when
`s = ⌈(b+1)·R/N⌉ − 1`. -/
theorem adws_range_iff (N R b s : Nat) (hR : 0 < R) (hN : 0 < N) :
    (s * N / R ≤ b ∧ b < (s + 1) * N / R) ↔ s = ((b + 1) * R + N - 1) / N - 1 := by
  constructor
  · rintro ⟨h1, h2⟩
    have hsN : s * N < (b + 1) * R :=
      (Nat.div_lt_iff_lt_mul hR).mp (show s * N / R < b + 1 by omega)
    have hbR : (b + 1) * R ≤ (s + 1) * N :=
      (Nat.le_div_iff_mul_le hR).mp (show b + 1 ≤ (s + 1) * N / R by omega)
    have hc1 : ((b + 1) * R + N - 1) / N ≤ s + 1 := nat_ceil_le hN hbR
    have hc2 : s < ((b + 1) * R + N - 1) / N := nat_lt_ceil hN hsN
    omega
  · rintro rfl
    set c := ((b + 1) * R + N - 1) / N with hc_def
    have hbR : 0 < (b + 1) * R := Nat.mul_pos (Nat.succ_pos b) hR
    have hc1 : 0 < c := by
      have := @nat_lt_ceil ((b + 1) * R) 0 N hN (by omega)
      omega
    have hcu : (b + 1) * R ≤ c * N := nat_le_ceil_mul hN
    have hcl : c * N ≤ (b + 1) * R + N - 1 := nat_ceil_mul_le
    have hexp : c * N = (c - 1) * N + N := by
      have := Nat.sub_mul c 1 N
      have : N ≤ c * N := Nat.le_mul_of_pos_left N hc1
      omega
    have hsN : (c - 1) * N < (b + 1) * R := by omega
    constructor
    · have := (@Nat.div_lt_iff_lt_mul R ((c - 1) * N) (b + 1) hR).mpr hsN
      omega
    · rw [Nat.lt_iff_add_one_le, Nat.le_div_iff_mul_le hR]
      have hone : c - 1 + 1 = c := by omega
      rw [hone]
      exact hcu

/-- The `block` policy's owner index is below `R`. -/
theorem block_owner_lt (N R b : Nat) (hR : 0 < R) (hN : 0 < N) (hb : b < N) :
    b * R / N < R := by
  rw [Nat.div_lt_iff_lt_mul hN, Nat.mul_comm R N]
  exact Nat.mul_lt_mul_of_lt_of_le hb (le_refl R) hR

/-- The `block_adws` policy's segment index is below `R`. -/
theorem adws_seg_lt (N R b : Nat) (hR : 0 < R) (hN : 0 < N) (hb : b < N) :
    ((b + 1) * R + N - 1) / N - 1 < R := by
  have h1 : (b + 1) * R ≤ R * N := by
    rw [Nat.mul_comm R N]
    exact Nat.mul_le_mul_right R (by omega)
  have h2 : ((b + 1) * R + N - 1) / N ≤ R := nat_ceil_le hN h1
  have hbR : 0 < (b + 1) * R := Nat.mul_pos (Nat.succ_pos b) hR
  have h3 : 0 < ((b + 1) * R + N - 1) / N := by
    have := @nat_lt_ceil ((b + 1) * R) 0 N hN (by omega)
    omega
  omega

/-- Claim C4: under the block and reverse-block policies with `0 < B`,
`0 < R`, the per-segment block ranges tile `[0, effective_size())`: every
offset below `effective_size()` lies in the byte range of exactly one
`seg_id < R`, and every segment's byte range stays below
`effective_size()`. -/
theorem C4_seg_partition :
    ∀ B size R, 0 < B → 0 < R →
      ((∀ o, o < (mem_mapper.block.mk B size R).effective_size →
        ∃! s, s < R ∧ ((mem_mapper.block.mk B size R).get_seg_range s).1 * B ≤ o ∧
          o < ((mem_mapper.block.mk B size R).get_seg_range s).2 * B) ∧
       (∀ s, s < R → ((mem_mapper.block.mk B size R).get_seg_range s).2 * B ≤
          (mem_mapper.block.mk B size R).effective_size)) ∧
      ((∀ o, o < (mem_mapper.block_adws.mk B size R).effective_size →
        ∃! s, s < R ∧ ((mem_mapper.block_adws.mk B size R).get_seg_range s).1 * B ≤ o ∧
          o < ((mem_mapper.block_adws.mk B size R).get_seg_range s).2 * B) ∧
       (∀ s, s < R → ((mem_mapper.block_adws.mk B size R).get_seg_range s).2 * B ≤
          (mem_mapper.block_adws.mk B size R).effective_size)) := by
  intro B size R hB hR
  constructor
  · constructor
    · intro o ho
      have ho' : o < (size + B - 1) / B * B := ho
      simp only [mem_mapper.block.get_seg_range, mem_mapper.block.n_blk]
      set N := (size + B - 1) / B with hN_def
      have hN : 0 < N := by
        rcases Nat.eq_zero_or_pos N with h0 | h
        · rw [h0] at ho'; simp at ho'
        · exact h
      have hb : o / B < N := (Nat.div_lt_iff_lt_mul hB).mpr ho'
      refine ⟨o / B * R / N, ⟨block_owner_lt N R (o / B) hR hN hb, ?_⟩, ?_⟩
      · obtain ⟨h1, h2⟩ := (block_range_iff N R (o / B) (o / B * R / N) hR hN).mpr rfl
        exact byte_range_of_blk_range hB rfl h1 h2
      · rintro y ⟨-, hy1, hy2⟩
        obtain ⟨g1, g2⟩ := blk_range_of_byte_range hB hy1 hy2
        exact (block_range_iff N R (o / B) y hR hN).mp ⟨g1, g2⟩
    · intro s hs
      simp only [mem_mapper.block.get_seg_range, mem_mapper.block.n_blk,
        mem_mapper.block.effective_size]
      set N := (size + B - 1) / B with hN_def
      have h1 : (s + 1) * N ≤ N * R := by
        rw [Nat.mul_comm N R]
        exact Nat.mul_le_mul_right N (by omega)
      have h2 : ((s + 1) * N + R - 1) / R ≤ N := nat_ceil_le hR (by rw [Nat.mul_comm N R] at h1 ⊢; omega)
      exact Nat.mul_le_mul_right B h2
  · constructor
    · intro o ho
      have ho' : o < (size + B - 1) / B * B := ho
      simp only [mem_mapper.block_adws.get_seg_range, mem_mapper.block_adws.n_blk]
      set N := (size + B - 1) / B with hN_def
      have hN : 0 < N := by
        rcases Nat.eq_zero_or_pos N with h0 | h
        · rw [h0] at ho'; simp at ho'
        · exact h
      have hb : o / B < N := (Nat.div_lt_iff_lt_mul hB).mpr ho'
      refine ⟨((o / B + 1) * R + N - 1) / N - 1,
        ⟨adws_seg_lt N R (o / B) hR hN hb, ?_⟩, ?_⟩
      · obtain ⟨h1, h2⟩ :=
          (adws_range_iff N R (o / B) (((o / B + 1) * R + N - 1) / N - 1) hR hN).mpr rfl
        exact byte_range_of_blk_range hB rfl h1 h2
      · rintro y ⟨-, hy1, hy2⟩
        obtain ⟨g1, g2⟩ := blk_range_of_byte_range hB hy1 hy2
        exact (adws_range_iff N R (o / B) y hR hN).mp ⟨g1, g2⟩
    · intro s hs
      simp only [mem_mapper.block_adws.get_seg_range, mem_mapper.block_adws.n_blk,
        mem_mapper.block_adws.effective_size]
      set N := (size + B - 1) / B with hN_def
      have h1 : (s + 1) * N ≤ N * R := by
        rw [Nat.mul_comm N R]
        exact Nat.mul_le_mul_right N (by omega)
      have h2 : (s + 1) * N / R ≤ N := by
        have h1' : (s + 1) * N ≤ N * R := h1
        have h3 : (s + 1) * N / R ≤ N * R / R := Nat.div_le_div_right h1'
        rwa [Nat.mul_div_cancel N hR] at h3
      exact Nat.mul_le_mul_right B h2

/-- Witness for C4 at concrete inputs. -/
theorem C4_seg_partition_witness :
    (0 : Nat) < 2 ∧ (0 : Nat) < 4 ∧
    ((∀ o, o < (mem_mapper.block.mk 2 28 4).effective_size →
      ∃! s, s < 4 ∧ ((mem_mapper.block.mk 2 28 4).get_seg_range s).1 * 2 ≤ o ∧
        o < ((mem_mapper.block.mk 2 28 4).get_seg_range s).2 * 2) ∧
     (∀ s, s < 4 → ((mem_mapper.block.mk 2 28 4).get_seg_range s).2 * 2 ≤
        (mem_mapper.block.mk 2 28 4).effective_size)) ∧
    ((∀ o, o < (mem_mapper.block_adws.mk 2 28 4).effective_size →
      ∃! s, s < 4 ∧ ((mem_mapper.block_adws.mk 2 28 4).get_seg_range s).1 * 2 ≤ o ∧
        o < ((mem_mapper.block_adws.mk 2 28 4).get_seg_range s).2 * 2) ∧
     (∀ s, s < 4 → ((mem_mapper.block_adws.mk 2 28 4).get_seg_range s).2 * 2 ≤
        (mem_mapper.block_adws.mk 2 28 4).effective_size)) :=
  ⟨by decide, by decide, C4_seg_partition 2 28 4 (by decide) (by decide)⟩

/-- Complement identity between floor and ceiling division:
`⌊(R·N − y)/R⌋ = N − ⌈y/R⌉` for `y ≤ R·N`. -/
theorem floor_mirror (N R y : Nat) (hR : 0 < R) (hy : y ≤ R * N) :
    (R * N - y) / R = N - (y + R - 1) / R := by
  set c := (y + R - 1) / R with hc_def
  have hcu : y ≤ c * R := nat_le_ceil_mul hR
  have hcl : c * R ≤ y + R - 1 := nat_ceil_mul_le
  have hy' : y ≤ N * R := by rw [Nat.mul_comm N R]; exact hy
  have hcN : c ≤ N := nat_ceil_le hR hy'
  have hcR : c * R ≤ N * R := Nat.mul_le_mul_right R hcN
  have hNR : N * R = R * N := Nat.mul_comm N R
  have h1 : (N - c) * R = N * R - c * R := Nat.sub_mul N c R
  have h2 : (N - c + 1) * R = (N - c) * R + R := by ring
  exact Nat.div_eq_of_lt_le (by omega) (by omega)

/-- Segment-range form of the mirror identity: for `k ≤ R`,
`⌊(R−k)·N/R⌋ = N − ⌈k·N/R⌉`. -/
theorem floor_mirror_seg (N R k : Nat) (hR : 0 < R) (hk : k ≤ R) :
    (R - k) * N / R = N - (k * N + R - 1) / R := by
  have h2 : k * N ≤ R * N := Nat.mul_le_mul_right N hk
  rw [Nat.sub_mul, floor_mirror N R (k * N) hR h2]

/-- Claim C5 as stated is false: with `B = 1`, `size = 14`, `R = 4` at
offset 3 the block policy assigns owner 0, so the claimed reflection
predicts owner `R − 0 − 1 = 3` for `block_adws`, but `block_adws` assigns
owner 2 (its seg range partition uses floor division, giving rank ranges
that are mirror images of the block policy's, not the same ranges with
reflected owners). -/
theorem C5_reflection_counterexample :
    ((mem_mapper.block.mk 1 14 4).get_segment 3).owner = 0 ∧
    ((mem_mapper.block_adws.mk 1 14 4).get_segment 3).owner = 2 ∧
    (2 : Nat) ≠ 4 - 0 - 1 := by decide

/-- Claim C5, amended: the reverse-block policy is the block policy with the
block order reversed. With `N = ⌈size/B⌉` blocks: (a) the owner `block_adws`
assigns at offset `o` equals the owner the block policy assigns to the
mirrored block `N − 1 − o/B`; (b) for every `seg_id s < R`, the block range
of `block_adws` segment `s` is the mirror image of the block range the block
policy gives segment `R − s − 1` (so rank `r`'s home blocks under
reverse-block are the mirror image of its blocks under block); and (c) each
rank's local share equals its share under the block policy. -/
theorem C5_reverse_block_mirror :
    ∀ B size R, 0 < B → 0 < R →
      ((∀ o, o < (mem_mapper.block_adws.mk B size R).effective_size →
        ((mem_mapper.block_adws.mk B size R).get_segment o).owner =
          ((mem_mapper.block.mk B size R).get_segment
            (((size + B - 1) / B - 1 - o / B) * B)).owner) ∧
       (∀ s, s < R →
        ((mem_mapper.block_adws.mk B size R).get_seg_range s).1 =
          (size + B - 1) / B - ((mem_mapper.block.mk B size R).get_seg_range (R - s - 1)).2 ∧
        ((mem_mapper.block_adws.mk B size R).get_seg_range s).2 =
          (size + B - 1) / B - ((mem_mapper.block.mk B size R).get_seg_range (R - s - 1)).1) ∧
       (∀ r, r < R →
        (mem_mapper.block_adws.mk B size R).local_size r =
          (mem_mapper.block.mk B size R).local_size r)) := by
  intro B size R hB hR
  refine ⟨?_, ?_, ?_⟩
  · intro o ho
    have ho' : o < (size + B - 1) / B * B := ho
    simp only [mem_mapper.block_adws.get_segment, mem_mapper.block_adws.get_seg_range,
      mem_mapper.block_adws.n_blk, mem_mapper.block.get_segment,
      mem_mapper.block.get_seg_range, mem_mapper.block.n_blk]
    set N := (size + B - 1) / B with hN_def
    have hN : 0 < N := by
      rcases Nat.eq_zero_or_pos N with h0 | h
      · rw [h0] at ho'; simp at ho'
      · exact h
    set b := o / B with hb_def
    have hb : b < N := (Nat.div_lt_iff_lt_mul hB).mpr ho'
    have hmd : (N - 1 - b) * B / B = N - 1 - b := Nat.mul_div_cancel _ hB
    rw [hmd]
    set c := ((b + 1) * R + N - 1) / N with hc_def
    have hbR : 0 < (b + 1) * R := Nat.mul_pos (Nat.succ_pos b) hR
    have hc1 : 0 < c := by
      have := @nat_lt_ceil ((b + 1) * R) 0 N hN (by omega)
      omega
    have hm : N - 1 - b = N - (b + 1) := by omega
    have hy : (b + 1) * R ≤ N * R := Nat.mul_le_mul_right R (by omega)
    have hmr : (N - (b + 1)) * R / N = R - ((b + 1) * R + N - 1) / N := by
      rw [Nat.sub_mul, floor_mirror R N ((b + 1) * R) hN hy]
    rw [hm, hmr]
    omega
  · intro s hs
    simp only [mem_mapper.block_adws.get_seg_range, mem_mapper.block_adws.n_blk,
      mem_mapper.block.get_seg_range, mem_mapper.block.n_blk]
    set N := (size + B - 1) / B with hN_def
    constructor
    · have h1 : R - (R - s) = s := by omega
      have h2 : R - s - 1 + 1 = R - s := by omega
      have := floor_mirror_seg N R (R - s) hR (by omega)
      rw [h1] at this
      rw [h2, this]
    · have h1 : R - (R - s - 1) = s + 1 := by omega
      have := floor_mirror_seg N R (R - s - 1) hR (by omega)
      rw [h1] at this
      rw [this]
  · intro r hr
    simp only [mem_mapper.block_adws.local_size, mem_mapper.block_adws.get_seg_range,
      mem_mapper.block_adws.n_blk, mem_mapper.block.local_size,
      mem_mapper.block.get_seg_range, mem_mapper.block.n_blk]
    set N := (size + B - 1) / B with hN_def
    have h2 : R - r - 1 + 1 = R - r := by omega
    have hm1 := floor_mirror_seg N R r hR (by omega)
    have hmr : R - r - 1 = R - (r + 1) := by omega
    have hm2 := floor_mirror_seg N R (r + 1) hR (by omega)
    rw [h2, hm1, hmr, hm2]
    have hcu1 : ((r + 1) * N + R - 1) / R ≤ N :=
      nat_ceil_le hR (by rw [Nat.mul_comm N R]; exact Nat.mul_le_mul_right N (by omega))
    have hmono : (r * N + R - 1) / R ≤ ((r + 1) * N + R - 1) / R := by
      apply Nat.div_le_div_right
      have : r * N ≤ (r + 1) * N := Nat.mul_le_mul_right N (by omega)
      omega
    have heq : N - (r * N + R - 1) / R - (N - ((r + 1) * N + R - 1) / R) =
        ((r + 1) * N + R - 1) / R - (r * N + R - 1) / R := by omega
    rw [heq]

/-- Witness for the amended C5 at concrete inputs. -/
theorem C5_reverse_block_mirror_witness :
    (0 : Nat) < 2 ∧ (0 : Nat) < 4 ∧
    ((∀ o, o < (mem_mapper.block_adws.mk 2 28 4).effective_size →
      ((mem_mapper.block_adws.mk 2 28 4).get_segment o).owner =
        ((mem_mapper.block.mk 2 28 4).get_segment
          (((28 + 2 - 1) / 2 - 1 - o / 2) * 2)).owner) ∧
     (∀ s, s < 4 →
      ((mem_mapper.block_adws.mk 2 28 4).get_seg_range s).1 =
        (28 + 2 - 1) / 2 - ((mem_mapper.block.mk 2 28 4).get_seg_range (4 - s - 1)).2 ∧
      ((mem_mapper.block_adws.mk 2 28 4).get_seg_range s).2 =
        (28 + 2 - 1) / 2 - ((mem_mapper.block.mk 2 28 4).get_seg_range (4 - s - 1)).1) ∧
     (∀ r, r < 4 →
      (mem_mapper.block_adws.mk 2 28 4).local_size r =
        (mem_mapper.block.mk 2 28 4).local_size r)) :=
  ⟨by decide, by decide, C5_reverse_block_mirror 2 28 4 (by decide) (by decide)⟩

/-- Claim C8: the check-in of a checked-out region is performed exactly once
on every exit path: the destructor calls `ori::checkin` exactly when the span
still holds a pointer; move construction transfers the holding and leaves the
moved-from span inert (destroying it performs no checkin, and a
move-then-destroy-both sequence checks in exactly as often as destroying the
original); move assignment first checks in the destination's previously held
region and then takes over the source, leaving it inert. (Copy construction
and copy assignment are `= delete`d in the class, so the model has no copy
operation at all.) -/
theorem C8_checkout_span_once :
    (∀ s : cspan.checkout_span, ∀ p, s.ptr = some p →
      cspan.destroy s = [cspan.Ev.checkin p s.n]) ∧
    (∀ s : cspan.checkout_span, s.ptr = none → cspan.destroy s = []) ∧
    (∀ s : cspan.checkout_span,
      (cspan.moveCtor s).1 = s ∧
      (cspan.moveCtor s).2.ptr = none ∧
      cspan.destroy (cspan.moveCtor s).2 = [] ∧
      cspan.destroy (cspan.moveCtor s).1 ++ cspan.destroy (cspan.moveCtor s).2 =
        cspan.destroy s) ∧
    (∀ dst src : cspan.checkout_span,
      (cspan.moveAssign dst src).2.2 = cspan.destroy dst ∧
      (cspan.moveAssign dst src).1 = ⟨src.ptr, src.n⟩ ∧
      (cspan.moveAssign dst src).2.1.ptr = none ∧
      cspan.destroy (cspan.moveAssign dst src).2.1 = [] ∧
      (cspan.moveAssign dst src).2.2 ++ cspan.destroy (cspan.moveAssign dst src).1
          ++ cspan.destroy (cspan.moveAssign dst src).2.1 =
        cspan.destroy dst ++ cspan.destroy src) := by
  refine ⟨?_, ?_, ?_, ?_⟩
  · intro s p h
    simp [cspan.destroy, h]
  · intro s h
    simp [cspan.destroy, h]
  · intro s
    exact ⟨rfl, rfl, rfl, by simp [cspan.moveCtor, cspan.destroy]⟩
  · intro dst src
    exact ⟨rfl, rfl, rfl, rfl, by simp [cspan.moveAssign, cspan.destroy]⟩

/-- Witness for C8 at concrete spans. -/
theorem C8_checkout_span_once_witness :
    cspan.destroy ⟨some 5, 3⟩ = [cspan.Ev.checkin 5 3] ∧
    cspan.destroy ⟨none, 0⟩ = [] :=
  ⟨C8_checkout_span_once.1 ⟨some 5, 3⟩ 5 rfl, C8_checkout_span_once.2.1 ⟨none, 0⟩ rfl⟩

/-- Claim C10 as stated is false for a null global pointer with `n > 0`:
the constructor indeed performs no `ori::checkout` and leaves `ptr_` null,
but its assertion `ITYR_CHECK((ptr_ && n_ > 0) || (!ptr_ && n == 0))` fails
(fatal in checked builds), so such a construction is not a quiet no-op at
the public interface. -/
theorem C10_zero_checkout_counterexample :
    cspan.mk_span_checked none 1 7 = none ∧
    cspan.mk_span none 1 7 = (⟨none, 1⟩, []) := by decide

/-- Claim C10, amended: constructing a `checkout_span` with `n = 0` (null or
non-null pointer) performs no `ori::checkout`, passes the constructor's
assertion, and yields `data() = nullptr`; destroying such a span or calling
`checkin()` on it performs no `ori::checkin`, so zero-length checkouts are
no-ops at the public interface. Constructing with a null pointer and `n > 0`
also performs no `ori::checkout` and yields a null `data()`, but fails the
constructor's debug assertion. -/
theorem C10_zero_checkout :
    (∀ gptr co, cspan.mk_span_checked gptr 0 co =
        some (⟨none, 0⟩, []) ∧
      cspan.data ⟨none, 0⟩ = none ∧
      cspan.destroy ⟨none, 0⟩ = [] ∧
      cspan.checkin ⟨none, 0⟩ = (⟨none, 0⟩, [])) ∧
    (∀ n co, 0 < n →
      cspan.mk_span none n co = (⟨none, n⟩, []) ∧
      cspan.ctor_check ⟨none, n⟩ n = false ∧
      cspan.destroy ⟨none, n⟩ = [] ∧
      cspan.checkin ⟨none, n⟩ = (⟨none, n⟩, [])) := by
  constructor
  · intro gptr co
    refine ⟨?_, rfl, rfl, rfl⟩
    simp [cspan.mk_span_checked, cspan.mk_span, cspan.ctor_check]
  · intro n co hn
    refine ⟨?_, ?_, rfl, rfl⟩
    · simp [cspan.mk_span]
    · simp [cspan.ctor_check]
      omega

/-- Witness for the amended C10 at concrete inputs. -/
theorem C10_zero_checkout_witness :
    (cspan.mk_span_checked (some 4) 0 7 = some (⟨none, 0⟩, []) ∧
      cspan.data ⟨none, 0⟩ = none ∧
      cspan.destroy ⟨none, 0⟩ = [] ∧
      cspan.checkin ⟨none, 0⟩ = (⟨none, 0⟩, [])) ∧
    ((0 : Nat) < 2 ∧ cspan.mk_span none 2 7 = (⟨none, 2⟩, []) ∧
      cspan.ctor_check ⟨none, 2⟩ 2 = false ∧
      cspan.destroy ⟨none, 2⟩ = [] ∧
      cspan.checkin ⟨none, 2⟩ = (⟨none, 2⟩, [])) :=
  ⟨C10_zero_checkout.1 (some 4) 7, by decide, C10_zero_checkout.2 2 7 (by decide)⟩

/-- The maximum of a nonempty list of ranks is one of them. -/
theorem listMax_mem : ∀ l : List Nat, l ≠ [] → vm_reserve.listMax l ∈ l := by
  intro l h
  induction l with
  | nil => exact absurd rfl h
  | cons a t ih =>
    simp only [vm_reserve.listMax]
    rcases Nat.le_total (vm_reserve.listMax t) a with hle | hle
    · rw [Nat.max_eq_left hle]
      exact List.mem_cons_self a t
    · rw [Nat.max_eq_right hle]
      rcases t with _ | ⟨b, t'⟩
      · have h0 : vm_reserve.listMax ([] : List Nat) = 0 := rfl
        rw [h0] at hle ⊢
        have ha : a = 0 := by omega
        simp [ha]
      · exact List.mem_cons_of_mem a (ih (by simp))

/-- Every member of a list of ranks is at most its maximum. -/
theorem le_listMax : ∀ (l : List Nat) (r : Nat), r ∈ l → r ≤ vm_reserve.listMax l := by
  intro l
  induction l with
  | nil => intro r h; simp at h
  | cons a t ih =>
    intro r h
    simp only [vm_reserve.listMax]
    rcases List.mem_cons.mp h with rfl | h2
    · exact Nat.le_max_left _ _
    · exact le_trans (ih r h2) (Nat.le_max_right _ _)

/-- If every round along the trajectory fails, the retry loop dies
(returns `none`), whatever the fuel. -/
theorem reserve_loop_all_fail (R size allocMax alloc0 : Nat)
    (foreign : Nat → Nat → List vm_reserve.Region) (addr : Nat → Nat) :
    ∀ fuel k,
      (∀ j, k ≤ j → j < k + fuel →
        (vm_reserve.round R size allocMax (foreign j) (addr j)
          (vm_reserve.trajectory R size allocMax foreign addr alloc0 j)).done = none) →
      vm_reserve.reserve_loop R size allocMax foreign addr fuel k
        (vm_reserve.trajectory R size allocMax foreign addr alloc0 k) = none := by
  intro fuel
  induction fuel with
  | zero => intro k _; rfl
  | succ fuel ih =>
    intro k h
    have h0 := h k (le_refl k) (by omega)
    simp only [vm_reserve.reserve_loop]
    rw [h0]
    exact ih (k + 1) fun j hj1 hj2 => h j (by omega) (by omega)

/-- If the rounds at trials `k..k+m-1` fail and the round at trial `k+m`
succeeds with result `f`, the retry loop started at trial `k` with more than
`m` units of fuel returns `f`. -/
theorem reserve_loop_first_success (R size allocMax alloc0 : Nat)
    (foreign : Nat → Nat → List vm_reserve.Region) (addr : Nat → Nat) :
    ∀ m fuel k f, m < fuel →
      (∀ j, k ≤ j → j < k + m →
        (vm_reserve.round R size allocMax (foreign j) (addr j)
          (vm_reserve.trajectory R size allocMax foreign addr alloc0 j)).done = none) →
      (vm_reserve.round R size allocMax (foreign (k + m)) (addr (k + m))
        (vm_reserve.trajectory R size allocMax foreign addr alloc0 (k + m))).done = some f →
      vm_reserve.reserve_loop R size allocMax foreign addr fuel k
        (vm_reserve.trajectory R size allocMax foreign addr alloc0 k) = some f := by
  intro m
  induction m with
  | zero =>
    intro fuel k f hf _ hs
    rcases fuel with _ | fuel
    · omega
    · simp only [Nat.add_zero] at hs
      simp only [vm_reserve.reserve_loop]
      rw [hs]
  | succ m ih =>
    intro fuel k f hf hnone hs
    rcases fuel with _ | fuel
    · omega
    · simp only [vm_reserve.reserve_loop]
      rw [hnone k (le_refl k) (by omega)]
      refine ih fuel (k + 1) f (by omega) (fun j hj1 hj2 => hnone j (by omega) (by omega)) ?_
      have he : k + 1 + m = k + (m + 1) := by omega
      rw [he]
      exact hs

/-- Claim C6: `reserve_same_vm_coll` proceeds in rounds with the leader
initially rank 0; in a round where no follower's fixed-address no-replace
mapping fails, every rank ends up holding the same region
`[a, a + size)` at the broadcast address `a`; in a failed round the
maximum-rank failed process becomes the next leader and the allocation size
doubles, capped at `allocMax` (instantiated by `reserve_same_vm_coll` to
`max(initial alloc size, 2^40)`); if all 101 trials (0..100, `max_trial =
100`) fail the call dies, and at the first successful trial `k ≤ 100` it
returns that round's common region. -/
theorem C6_reserve_same_vm :
    (∀ alloc0, (vm_reserve.init alloc0).leader = 0) ∧
    (∀ R size allocMax ft a st,
      vm_reserve.failed_ranks R ft st (a, st.alloc_size) = [] →
      ∃ f, (vm_reserve.round R size allocMax ft a st).done = some f ∧
        ∀ r, r < R → f r = (a, size)) ∧
    (∀ R size allocMax ft a st,
      vm_reserve.failed_ranks R ft st (a, st.alloc_size) ≠ [] →
      (vm_reserve.round R size allocMax ft a st).done = none ∧
      (vm_reserve.round R size allocMax ft a st).next.leader ∈
        vm_reserve.failed_ranks R ft st (a, st.alloc_size) ∧
      (∀ r, r ∈ vm_reserve.failed_ranks R ft st (a, st.alloc_size) →
        r ≤ (vm_reserve.round R size allocMax ft a st).next.leader) ∧
      (vm_reserve.round R size allocMax ft a st).next.alloc_size =
        min allocMax (2 * st.alloc_size)) ∧
    (∀ R size alloc0 foreign addr,
      (∀ j, j ≤ 100 →
        (vm_reserve.round R size (max alloc0 (2 ^ 40)) (foreign j) (addr j)
          (vm_reserve.trajectory R size (max alloc0 (2 ^ 40)) foreign addr alloc0 j)).done
          = none) →
      vm_reserve.reserve_same_vm_coll R size alloc0 foreign addr = none) ∧
    (∀ R size alloc0 foreign addr k f, k ≤ 100 →
      (∀ j, j < k →
        (vm_reserve.round R size (max alloc0 (2 ^ 40)) (foreign j) (addr j)
          (vm_reserve.trajectory R size (max alloc0 (2 ^ 40)) foreign addr alloc0 j)).done
          = none) →
      (vm_reserve.round R size (max alloc0 (2 ^ 40)) (foreign k) (addr k)
        (vm_reserve.trajectory R size (max alloc0 (2 ^ 40)) foreign addr alloc0 k)).done
        = some f →
      vm_reserve.reserve_same_vm_coll R size alloc0 foreign addr = some f) := by
  refine ⟨fun _ => rfl, ?_, ?_, ?_, ?_⟩
  · intro R size allocMax ft a st h
    simp only [vm_reserve.round]
    rw [if_pos h]
    refine ⟨_, rfl, ?_⟩
    intro r hr
    by_cases hrl : r = st.leader
    · simp [hrl, vm_reserve.shrinkVm]
    · have hnf : vm_reserve.fails ft st (a, st.alloc_size) r = false := by
        have := List.filter_eq_nil_iff.mp h r (List.mem_range.mpr hr)
        simp only [Bool.and_eq_true, decide_eq_true_eq] at this
        rcases Bool.eq_false_or_eq_true (vm_reserve.fails ft st (a, st.alloc_size) r)
          with hf | hf
        · exact absurd ⟨hrl, hf⟩ this
        · exact hf
      simp [hrl, hnf, vm_reserve.shrinkVm]
  · intro R size allocMax ft a st h
    simp only [vm_reserve.round]
    rw [if_neg h]
    exact ⟨rfl, listMax_mem _ h, fun r hr => le_listMax _ r hr, rfl⟩
  · intro R size alloc0 foreign addr h
    exact reserve_loop_all_fail R size (max alloc0 (2 ^ 40)) alloc0 foreign addr 101 0
      fun j hj1 hj2 => h j (by omega)
  · intro R size alloc0 foreign addr k f hk hnone hs
    refine reserve_loop_first_success R size (max alloc0 (2 ^ 40)) alloc0 foreign addr k 101 0 f
      (by omega) (fun j hj1 hj2 => hnone j (by omega)) ?_
    have he : 0 + k = k := by omega
    rw [he]
    exact hs

/-- Witness for C6 at concrete inputs: a clean round where every rank gets
`[100, 100 + 4096)`, and a round where rank 1's mapping collides, making
rank 1 the next leader and doubling the allocation size. -/
theorem C6_reserve_same_vm_witness :
    (∃ f, (vm_reserve.round 2 4096 (2 ^ 40) (fun _ => []) 100
        (vm_reserve.init 4096)).done = some f ∧ ∀ r, r < 2 → f r = (100, 4096)) ∧
    ((vm_reserve.round 2 4096 (2 ^ 40) (fun r => if r = 1 then [(100, 1)] else []) 100
        (vm_reserve.init 4096)).done = none ∧
      (vm_reserve.round 2 4096 (2 ^ 40) (fun r => if r = 1 then [(100, 1)] else []) 100
        (vm_reserve.init 4096)).next.leader ∈
        vm_reserve.failed_ranks 2 (fun r => if r = 1 then [(100, 1)] else [])
          (vm_reserve.init 4096) (100, (vm_reserve.init 4096).alloc_size) ∧
      (∀ r, r ∈ vm_reserve.failed_ranks 2 (fun r => if r = 1 then [(100, 1)] else [])
          (vm_reserve.init 4096) (100, (vm_reserve.init 4096).alloc_size) →
        r ≤ (vm_reserve.round 2 4096 (2 ^ 40) (fun r => if r = 1 then [(100, 1)] else []) 100
          (vm_reserve.init 4096)).next.leader) ∧
      (vm_reserve.round 2 4096 (2 ^ 40) (fun r => if r = 1 then [(100, 1)] else []) 100
        (vm_reserve.init 4096)).next.alloc_size =
        min (2 ^ 40) (2 * (vm_reserve.init 4096).alloc_size)) :=
  ⟨C6_reserve_same_vm.2.1 2 4096 (2 ^ 40) (fun _ => []) 100 (vm_reserve.init 4096)
      (by decide),
   C6_reserve_same_vm.2.2.1 2 4096 (2 ^ 40) (fun r => if r = 1 then [(100, 1)] else []) 100
      (vm_reserve.init 4096) (by decide)⟩

/-- Claim C7 as stated is false: in a concrete failed round (rank 1's
no-replace mapping collides with a foreign mapping), the failed follower —
which becomes the next leader — defers nothing (its `prev_vms` stays empty);
it is the non-failed rank 0 that defers its current reservation of the
broadcast region into `prev_vms`. -/
theorem C7_defer_counterexample :
    vm_reserve.fails (fun r => if r = 1 then [(100, 1)] else []) (vm_reserve.init 4096)
      (100, 4096) 1 = true ∧
    ((vm_reserve.round 2 4096 (2 ^ 40) (fun r => if r = 1 then [(100, 1)] else []) 100
      (vm_reserve.init 4096)).next.ranks 1).prev_vms = [] ∧
    ((vm_reserve.round 2 4096 (2 ^ 40) (fun r => if r = 1 then [(100, 1)] else []) 100
      (vm_reserve.init 4096)).next.ranks 0).prev_vms = [some (100, 4096)] ∧
    (vm_reserve.round 2 4096 (2 ^ 40) (fun r => if r = 1 then [(100, 1)] else []) 100
      (vm_reserve.init 4096)).next.leader = 1 := by decide

/-- Claim C7, amended: in every failed round of `reserve_same_vm_coll`, the
ranks whose mapping did not fail — the leader and the successful followers —
defer freeing the round's reservation of the broadcast region into
`prev_vms` (their `vm` is moved into `prev_vms`); a failed follower pushes
nothing (it holds no mapping of the broadcast region) and merely keeps its
remaining earlier reservations, minus the ones overlapping the broadcast
region, which followers destroy before the attempt. A retained reservation
stays part of the rank's mapped address space, so when a later leader's
fresh anonymous mmap returns a region (necessarily disjoint from that
rank's live mappings), that region overlaps none of its retained
reservations — a deferred address is not handed out again by that leader. -/
theorem C7_defer_by_nonfailed :
    ∀ R size allocMax ft a st,
      vm_reserve.failed_ranks R ft st (a, st.alloc_size) ≠ [] →
      (∀ r, r = st.leader →
        (vm_reserve.round R size allocMax ft a st).next.ranks r =
          ⟨none, (st.ranks r).prev_vms ++ [some (a, st.alloc_size)]⟩) ∧
      (∀ r, r ≠ st.leader → vm_reserve.fails ft st (a, st.alloc_size) r = false →
        (vm_reserve.round R size allocMax ft a st).next.ranks r =
          ⟨none, vm_reserve.freeOverlapping (a, st.alloc_size) (st.ranks r).prev_vms
            ++ [some (a, st.alloc_size)]⟩) ∧
      (∀ r, r ≠ st.leader → vm_reserve.fails ft st (a, st.alloc_size) r = true →
        (vm_reserve.round R size allocMax ft a st).next.ranks r =
          ⟨(st.ranks r).vm,
           vm_reserve.freeOverlapping (a, st.alloc_size) (st.ranks r).prev_vms⟩) ∧
      ((∀ g, g ∈ vm_reserve.occupied (ft st.leader) (st.ranks st.leader).vm
          (st.ranks st.leader).prev_vms →
          vm_reserve.overlapsB g (a, st.alloc_size) = false) →
        ∀ reg, some reg ∈ (st.ranks st.leader).prev_vms →
          vm_reserve.overlapsB reg (a, st.alloc_size) = false) := by
  intro R size allocMax ft a st h
  refine ⟨?_, ?_, ?_, ?_⟩
  · intro r hr
    simp only [vm_reserve.round]
    rw [if_neg h]
    simp [hr]
  · intro r hr hf
    simp only [vm_reserve.round]
    rw [if_neg h]
    simp [hr, hf]
  · intro r hr hf
    simp only [vm_reserve.round]
    rw [if_neg h]
    simp [hr, hf]
  · intro hfresh reg hreg
    apply hfresh
    simp only [vm_reserve.occupied]
    refine List.mem_append.mpr (Or.inl (List.mem_append.mpr (Or.inr ?_)))
    exact List.mem_filterMap.mpr ⟨some reg, hreg, rfl⟩

/-- Witness for the amended C7 at the counterexample's concrete input. -/
theorem C7_defer_by_nonfailed_witness :
    ((vm_reserve.round 2 4096 (2 ^ 40) (fun r => if r = 1 then [(100, 1)] else []) 100
        (vm_reserve.init 4096)).next.ranks 0 =
      ⟨none, [some (100, 4096)]⟩) ∧
    ((vm_reserve.round 2 4096 (2 ^ 40) (fun r => if r = 1 then [(100, 1)] else []) 100
        (vm_reserve.init 4096)).next.ranks 1 =
      ⟨none, []⟩) :=
  ⟨by
    have h := (C7_defer_by_nonfailed 2 4096 (2 ^ 40)
      (fun r => if r = 1 then [(100, 1)] else []) 100 (vm_reserve.init 4096)
      (by decide)).1 0 (by decide)
    simpa using h,
   by
    have h := (C7_defer_by_nonfailed 2 4096 (2 ^ 40)
      (fun r => if r = 1 then [(100, 1)] else []) 100 (vm_reserve.init 4096)
      (by decide)).2.2.1 1 (by decide) (by decide)
    simpa using h⟩

theorem cons_split {α : Type} (T1 T2 pre post : List α) (v : α)
    (h : T1 ++ T2 = pre ++ v :: post) :
    (∃ p1, T1 = pre ++ v :: p1 ∧ post = p1 ++ T2) ∨
    (∃ p2, T2 = p2 ++ v :: post ∧ pre = T1 ++ p2) := by
  induction T1 generalizing pre with
  | nil =>
    right
    exact ⟨pre, by simpa using h, by simp⟩
  | cons a T1 ih =>
    rcases pre with _ | ⟨b, pre⟩
    · simp only [List.nil_append, List.cons_append] at h
      obtain ⟨rfl, h2⟩ := List.cons.inj h
      left
      exact ⟨T1, by simp, h2.symm⟩
    · simp only [List.cons_append] at h
      obtain ⟨rfl, h2⟩ := List.cons.inj h
      rcases ih pre h2 with ⟨p1, hA, hB⟩ | ⟨p2, hA, hB⟩
      · left
        exact ⟨p1, by simp [hA], hB⟩
      · right
        exact ⟨p2, hA, by simp [hB]⟩

/-- An element equal to the head pattern of the right side is a member of
the left side. -/
theorem mem_of_split {α : Type} {T pre post : List α} {v : α}
    (h : T = pre ++ v :: post) : v ∈ T := by
  rw [h]
  exact List.mem_append.mpr (Or.inr (List.mem_cons_self _ _))

open preduce in
theorem prg_spawn_callbacks (cutoff : Nat) (ser : Nat → Bool) :
    ∀ fuel first n rh c pre tid e x post,
      (parallel_reduce_generic cutoff ser fuel first n rh c).1 =
        pre ++ Ev.spawn tid e x :: post →
      x = Cb.release ∧ ∃ hh, e = Cb.acquireH hh ∧ (hh = rh ∨ Ev.relLazy hh ∈ pre) := by
  intro fuel
  induction fuel with
  | zero =>
    intro first n rh c pre tid e x post hEq
    simp [parallel_reduce_generic] at hEq
  | succ fuel ih =>
    intro first n rh c pre tid e x post hEq
    simp only [parallel_reduce_generic] at hEq
    by_cases hn : n ≤ cutoff
    · rw [if_pos hn] at hEq
      dsimp only at hEq
      have hmem := mem_of_split hEq
      simp at hmem
    · rw [if_neg hn] at hEq
      by_cases hs : ser c.t
      · rw [if_pos hs] at hEq
        dsimp only at hEq
        simp only [List.append_assoc] at hEq
        rcases cons_split _ _ _ _ _ hEq with ⟨p1, hA, hpost⟩ | ⟨p2, hM, hpre⟩
        · have hv := mem_of_split hA
          simp only [List.mem_cons, List.not_mem_nil, or_false] at hv
          rcases hv with hv | hv | hv
          · exact Ev.noConfusion hv
          · exact Ev.noConfusion hv
          · obtain ⟨h1, h2, h3⟩ := Ev.spawn.inj hv
            exact ⟨h3, rh, h2, Or.inl rfl⟩
        · rcases cons_split _ _ _ _ _ hM with ⟨q, hL, hpost2⟩ | ⟨p3, hM2, hp2⟩
          · obtain ⟨hx, hh, he, hliv⟩ := ih first (n / 2) rh ⟨c.h, c.t + 1⟩ p2 tid e x q hL
            refine ⟨hx, hh, he, ?_⟩
            rcases hliv with hl | hl
            · exact Or.inl hl
            · subst hpre
              exact Or.inr (List.mem_append.mpr (Or.inr hl))
          · rcases cons_split _ _ _ _ _ hM2 with ⟨q, hJ, hpost3⟩ | ⟨p4, hM3, hp3⟩
            · have hv := mem_of_split hJ
              simp at hv
            · rcases cons_split _ _ _ _ _ hM3 with ⟨q, hR, hpost4⟩ | ⟨p5, hM4, hp4⟩
              · obtain ⟨hx, hh, he, hliv⟩ :=
                  ih (first + n / 2) (n - n / 2) rh
                    (parallel_reduce_generic cutoff ser fuel first (n / 2) rh
                      ⟨c.h, c.t + 1⟩).2 p4 tid e x q hR
                refine ⟨hx, hh, he, ?_⟩
                rcases hliv with hl | hl
                · exact Or.inl hl
                · subst hpre hp2 hp3
                  refine Or.inr (List.mem_append.mpr (Or.inr ?_))
                  refine List.mem_append.mpr (Or.inr ?_)
                  exact List.mem_append.mpr (Or.inr hl)
              · have hv := mem_of_split hM4
                simp at hv
      · rw [if_neg hs] at hEq
        dsimp only at hEq
        simp only [List.append_assoc] at hEq
        rcases cons_split _ _ _ _ _ hEq with ⟨p1, hA, hpost⟩ | ⟨p2, hM, hpre⟩
        · have hv := mem_of_split hA
          simp only [List.mem_cons, List.not_mem_nil, or_false] at hv
          rcases hv with hv | hv | hv | hv
          · exact Ev.noConfusion hv
          · exact Ev.noConfusion hv
          · obtain ⟨h1, h2, h3⟩ := Ev.spawn.inj hv
            exact ⟨h3, rh, h2, Or.inl rfl⟩
          · exact Ev.noConfusion hv
        · rcases cons_split _ _ _ _ _ hM with ⟨q, hR, hpost2⟩ | ⟨p3, hM2, hp2⟩
          · obtain ⟨hx, hh, he, hliv⟩ :=
              ih (first + n / 2) (n - n / 2) c.h ⟨c.h + 1, c.t + 1⟩ p2 tid e x q hR
            refine ⟨hx, hh, he, ?_⟩
            rcases hliv with hl | hl
            · subst hpre hl
              refine Or.inr (List.mem_append.mpr (Or.inl ?_))
              simp
            · subst hpre
              exact Or.inr (List.mem_append.mpr (Or.inr hl))
          · have hv := mem_of_split hM2
            simp at hv

open preduce in
theorem prg_ctr_mono (cutoff : Nat) (ser : Nat → Bool) :
    ∀ fuel first n rh c,
      c.h ≤ ((parallel_reduce_generic cutoff ser fuel first n rh c).2).h := by
  intro fuel
  induction fuel with
  | zero => intro first n rh c; exact le_refl _
  | succ fuel ih =>
    intro first n rh c
    simp only [parallel_reduce_generic]
    by_cases hn : n ≤ cutoff
    · rw [if_pos hn]
    · rw [if_neg hn]
      by_cases hs : ser c.t
      · rw [if_pos hs]
        dsimp only
        exact le_trans (ih first (n / 2) rh ⟨c.h, c.t + 1⟩)
          (ih (first + n / 2) (n - n / 2) rh _)
      · rw [if_neg hs]
        dsimp only
        exact le_trans (Nat.le_succ c.h)
          (ih (first + n / 2) (n - n / 2) c.h ⟨c.h + 1, c.t + 1⟩)

open preduce in
theorem prg_relLazy_range (cutoff : Nat) (ser : Nat → Bool) :
    ∀ fuel first n rh c hh,
      Ev.relLazy hh ∈ (parallel_reduce_generic cutoff ser fuel first n rh c).1 →
      c.h ≤ hh ∧ hh < ((parallel_reduce_generic cutoff ser fuel first n rh c).2).h := by
  intro fuel
  induction fuel with
  | zero => intro first n rh c hh hm; simp [parallel_reduce_generic] at hm
  | succ fuel ih =>
    intro first n rh c hh hm
    simp only [parallel_reduce_generic] at hm ⊢
    by_cases hn : n ≤ cutoff
    · rw [if_pos hn] at hm
      simp at hm
    · rw [if_neg hn] at hm ⊢
      by_cases hs : ser c.t
      · rw [if_pos hs] at hm ⊢
        dsimp only at hm ⊢
        simp only [List.mem_append, List.mem_cons, List.not_mem_nil, or_false] at hm
        rcases hm with ((((hm | hm | hm) | hm) | hm) | hm) | hm
        · exact Ev.noConfusion hm
        · exact Ev.noConfusion hm
        · exact Ev.noConfusion hm
        · have h1 := ih first (n / 2) rh ⟨c.h, c.t + 1⟩ hh hm
          have h2 := prg_ctr_mono cutoff ser fuel (first + n / 2) (n - n / 2) rh
            (parallel_reduce_generic cutoff ser fuel first (n / 2) rh ⟨c.h, c.t + 1⟩).2
          exact ⟨h1.1, lt_of_lt_of_le h1.2 h2⟩
        · exact Ev.noConfusion hm
        · have h1 := ih (first + n / 2) (n - n / 2) rh
            (parallel_reduce_generic cutoff ser fuel first (n / 2) rh ⟨c.h, c.t + 1⟩).2 hh hm
          have h2 := prg_ctr_mono cutoff ser fuel first (n / 2) rh
            (⟨c.h, c.t + 1⟩ : Ctr)
          exact ⟨le_trans h2 h1.1, h1.2⟩
        · exact Ev.noConfusion hm
      · rw [if_neg hs] at hm ⊢
        dsimp only at hm ⊢
        simp only [List.mem_append, List.mem_cons, List.not_mem_nil, or_false] at hm
        rcases hm with ((hm | hm | hm | hm) | hm) | (hm | hm | hm | hm | hm)
        · exact Ev.noConfusion hm
        · exact Ev.noConfusion hm
        · exact Ev.noConfusion hm
        · obtain h1 := Ev.relLazy.inj hm
          subst h1
          refine ⟨le_refl _, ?_⟩
          have h2 := prg_ctr_mono cutoff ser fuel (first + n / 2) (n - n / 2) c.h
            (⟨c.h + 1, c.t + 1⟩ : Ctr)
          have h3 : (⟨c.h + 1, c.t + 1⟩ : Ctr).h = c.h + 1 := rfl
          omega
        · have h1 := ih (first + n / 2) (n - n / 2) c.h ⟨c.h + 1, c.t + 1⟩ hh hm
          have h3 : (⟨c.h + 1, c.t + 1⟩ : Ctr).h = c.h + 1 := rfl
          obtain ⟨h4, h5⟩ := h1
          exact ⟨by omega, h5⟩
        · exact Ev.noConfusion hm
        · exact Ev.noConfusion hm
        · exact Ev.noConfusion hm
        · exact Ev.noConfusion hm
        · exact Ev.noConfusion hm

open preduce in
theorem prg_relLazy_unique (cutoff : Nat) (ser : Nat → Bool) :
    ∀ fuel first n rh c hh,
      ((parallel_reduce_generic cutoff ser fuel first n rh c).1.countP
        (fun ev => decide (ev = Ev.relLazy hh))) ≤ 1 := by
  intro fuel
  induction fuel with
  | zero => intro first n rh c hh; simp [parallel_reduce_generic]
  | succ fuel ih =>
    intro first n rh c hh
    simp only [parallel_reduce_generic]
    by_cases hn : n ≤ cutoff
    · rw [if_pos hn]
      simp [List.countP_cons]
    · rw [if_neg hn]
      by_cases hs : ser c.t
      · rw [if_pos hs]
        dsimp only
        simp only [List.countP_append, List.countP_cons, List.countP_nil]
        have hL := ih first (n / 2) rh ⟨c.h, c.t + 1⟩ hh
        have hR := ih (first + n / 2) (n - n / 2) rh
          (parallel_reduce_generic cutoff ser fuel first (n / 2) rh ⟨c.h, c.t + 1⟩).2 hh
        by_cases hmL : Ev.relLazy hh ∈
            (parallel_reduce_generic cutoff ser fuel first (n / 2) rh ⟨c.h, c.t + 1⟩).1
        · have hrange := prg_relLazy_range cutoff ser fuel first (n / 2) rh ⟨c.h, c.t + 1⟩ hh hmL
          have hzero : ((parallel_reduce_generic cutoff ser fuel (first + n / 2) (n - n / 2) rh
              (parallel_reduce_generic cutoff ser fuel first (n / 2) rh ⟨c.h, c.t + 1⟩).2).1.countP
              (fun ev => decide (ev = Ev.relLazy hh))) = 0 := by
            rw [List.countP_eq_zero]
            intro a ha hpa
            have ha2 : a = Ev.relLazy hh := by simpa using hpa
            subst ha2
            have := prg_relLazy_range cutoff ser fuel (first + n / 2) (n - n / 2) rh
              (parallel_reduce_generic cutoff ser fuel first (n / 2) rh ⟨c.h, c.t + 1⟩).2 hh ha
            omega
          simp only [hzero]
          simp
          omega
        · have hzero : ((parallel_reduce_generic cutoff ser fuel first (n / 2) rh
              ⟨c.h, c.t + 1⟩).1.countP (fun ev => decide (ev = Ev.relLazy hh))) = 0 := by
            rw [List.countP_eq_zero]
            intro a ha hpa
            have ha2 : a = Ev.relLazy hh := by simpa using hpa
            subst ha2
            exact hmL ha
          simp only [hzero]
          simp
          omega
      · rw [if_neg hs]
        dsimp only
        simp only [List.countP_append, List.countP_cons, List.countP_nil]
        have hR := ih (first + n / 2) (n - n / 2) c.h ⟨c.h + 1, c.t + 1⟩ hh
        by_cases hc : hh = c.h
        · have hzero : ((parallel_reduce_generic cutoff ser fuel (first + n / 2) (n - n / 2) c.h
              ⟨c.h + 1, c.t + 1⟩).1.countP (fun ev => decide (ev = Ev.relLazy hh))) = 0 := by
            rw [List.countP_eq_zero]
            intro a ha hpa
            have ha2 : a = Ev.relLazy hh := by simpa using hpa
            subst ha2
            have hr := prg_relLazy_range cutoff ser fuel (first + n / 2) (n - n / 2) c.h
              ⟨c.h + 1, c.t + 1⟩ hh ha
            have h3 : (⟨c.h + 1, c.t + 1⟩ : Ctr).h = c.h + 1 := rfl
            omega
          simp only [hzero]
          simp [hc]
        · have hc' : ¬ c.h = hh := fun hx => hc hx.symm
          simp [hc', hR]

open preduce in
theorem prg_spawn_migrated (cutoff : Nat) (ser : Nat → Bool) :
    ∀ fuel first n rh c pre tid e x post,
      (parallel_reduce_generic cutoff ser fuel first n rh c).1 =
        pre ++ Ev.spawn tid e x :: post →
      ser tid = false →
      ∃ hh mid2 post2,
        post = Ev.relLazy hh :: (mid2 ++ Ev.rel :: Ev.join tid :: post2) := by
  intro fuel
  induction fuel with
  | zero =>
    intro first n rh c pre tid e x post hEq hser
    simp [parallel_reduce_generic] at hEq
  | succ fuel ih =>
    intro first n rh c pre tid e x post hEq hser
    simp only [parallel_reduce_generic] at hEq
    by_cases hn : n ≤ cutoff
    · rw [if_pos hn] at hEq
      dsimp only at hEq
      have hmem := mem_of_split hEq
      simp at hmem
    · rw [if_neg hn] at hEq
      by_cases hs : ser c.t
      · rw [if_pos hs] at hEq
        dsimp only at hEq
        simp only [List.append_assoc] at hEq
        rcases cons_split _ _ _ _ _ hEq with ⟨p1, hA, hpost⟩ | ⟨p2, hM, hpre⟩
        · have hv := mem_of_split hA
          simp only [List.mem_cons, List.not_mem_nil, or_false] at hv
          rcases hv with hv | hv | hv
          · exact Ev.noConfusion hv
          · exact Ev.noConfusion hv
          · obtain ⟨h1, h2, h3⟩ := Ev.spawn.inj hv
            rw [h1] at hser
            rw [hser] at hs
            exact Bool.noConfusion hs
        · rcases cons_split _ _ _ _ _ hM with ⟨q, hL, hpost2⟩ | ⟨p3, hM2, hp2⟩
          · obtain ⟨hh, mid2, post2, hdec⟩ :=
              ih first (n / 2) rh ⟨c.h, c.t + 1⟩ p2 tid e x q hL hser
            subst hdec hpost2
            refine ⟨hh, mid2, post2 ++ ([Ev.join c.t] ++
              ((parallel_reduce_generic cutoff ser fuel (first + n / 2) (n - n / 2) rh
                (parallel_reduce_generic cutoff ser fuel first (n / 2) rh
                  ⟨c.h, c.t + 1⟩).2).1 ++ [Ev.tgEnd])), ?_⟩
            simp [List.append_assoc]
          · rcases cons_split _ _ _ _ _ hM2 with ⟨q, hJ, hpost3⟩ | ⟨p4, hM3, hp3⟩
            · have hv := mem_of_split hJ
              simp at hv
            · rcases cons_split _ _ _ _ _ hM3 with ⟨q, hR, hpost4⟩ | ⟨p5, hM4, hp4⟩
              · obtain ⟨hh, mid2, post2, hdec⟩ :=
                  ih (first + n / 2) (n - n / 2) rh
                    (parallel_reduce_generic cutoff ser fuel first (n / 2) rh
                      ⟨c.h, c.t + 1⟩).2 p4 tid e x q hR hser
                subst hdec hpost4
                refine ⟨hh, mid2, post2 ++ [Ev.tgEnd], ?_⟩
                simp [List.append_assoc]
              · have hv := mem_of_split hM4
                simp at hv
      · rw [if_neg hs] at hEq
        dsimp only at hEq
        simp only [List.append_assoc] at hEq
        rcases cons_split _ _ _ _ _ hEq with ⟨p1, hA, hpost⟩ | ⟨p2, hM, hpre⟩
        · -- the spawn is among the four head events; peel off the prefix
          rcases pre with _ | ⟨a1, pre⟩
          · simp only [List.nil_append] at hA
            obtain ⟨h1, -⟩ := List.cons.inj hA
            exact Ev.noConfusion h1
          · simp only [List.cons_append] at hA
            obtain ⟨h1, hA2⟩ := List.cons.inj hA
            rcases pre with _ | ⟨a2, pre⟩
            · simp only [List.nil_append] at hA2
              obtain ⟨h2, -⟩ := List.cons.inj hA2
              exact Ev.noConfusion h2
            · simp only [List.cons_append] at hA2
              obtain ⟨h2, hA3⟩ := List.cons.inj hA2
              rcases pre with _ | ⟨a3, pre⟩
              · simp only [List.nil_append] at hA3
                obtain ⟨h3, hA4⟩ := List.cons.inj hA3
                obtain ⟨ht, -, -⟩ := Ev.spawn.inj h3
                subst hpost
                refine ⟨c.h, (parallel_reduce_generic cutoff ser fuel (first + n / 2)
                  (n - n / 2) c.h ⟨c.h + 1, c.t + 1⟩).1, [Ev.tgEnd, Ev.acq, Ev.combine], ?_⟩
                rw [← hA4, ← ht]
                simp
              · simp only [List.cons_append] at hA3
                obtain ⟨h3, hA4⟩ := List.cons.inj hA3
                rcases pre with _ | ⟨a4, pre⟩
                · simp only [List.nil_append] at hA4
                  obtain ⟨h4, -⟩ := List.cons.inj hA4
                  exact Ev.noConfusion h4
                · simp only [List.cons_append] at hA4
                  obtain ⟨h4, hA5⟩ := List.cons.inj hA4
                  simp at hA5
        · rcases cons_split _ _ _ _ _ hM with ⟨q, hR, hpost2⟩ | ⟨p3, hM2, hp2⟩
          · obtain ⟨hh, mid2, post2, hdec⟩ :=
              ih (first + n / 2) (n - n / 2) c.h ⟨c.h + 1, c.t + 1⟩ p2 tid e x q hR hser
            subst hdec hpost2
            refine ⟨hh, mid2, post2 ++ [Ev.rel, Ev.join c.t, Ev.tgEnd, Ev.acq, Ev.combine], ?_⟩
            simp [List.append_assoc]
          · have hv := mem_of_split hM2
            simp at hv

/-- Claim C9: in `parallel_reduce_generic` every spawned child task is
created with an on-enter callback `ori::acquire(rh)` where `rh` is the
release handle in scope at the spawn — the handle passed down by the caller
or one produced by an earlier `ori::release_lazy()` in the trace — and an
on-exit callback `ori::release()`; whenever the child is not serialized,
the spawn is immediately followed by `ori::release_lazy()` (whose handle is
passed to the recursion on the right half) and the matching
`ito::thread::join` is immediately preceded by `ori::release()`; and the
handles produced by `ori::release_lazy()` are fresh: they lie in the
handle-counter range opened at the call and no handle is produced twice, so
memory order is transferred across every task migration point. -/
theorem C9_parallel_reduce_dsm_callbacks :
    (∀ cutoff ser fuel first n rh c pre tid e x post,
      (preduce.parallel_reduce_generic cutoff ser fuel first n rh c).1 =
        pre ++ preduce.Ev.spawn tid e x :: post →
      x = preduce.Cb.release ∧
        ∃ hh, e = preduce.Cb.acquireH hh ∧ (hh = rh ∨ preduce.Ev.relLazy hh ∈ pre)) ∧
    (∀ cutoff ser fuel first n rh c pre tid e x post,
      (preduce.parallel_reduce_generic cutoff ser fuel first n rh c).1 =
        pre ++ preduce.Ev.spawn tid e x :: post →
      ser tid = false →
      ∃ hh mid2 post2,
        post = preduce.Ev.relLazy hh ::
          (mid2 ++ preduce.Ev.rel :: preduce.Ev.join tid :: post2)) ∧
    (∀ cutoff ser fuel first n rh c hh,
      preduce.Ev.relLazy hh ∈ (preduce.parallel_reduce_generic cutoff ser fuel first n rh c).1 →
      c.h ≤ hh ∧ hh < ((preduce.parallel_reduce_generic cutoff ser fuel first n rh c).2).h) ∧
    (∀ cutoff ser fuel first n rh c hh,
      ((preduce.parallel_reduce_generic cutoff ser fuel first n rh c).1.countP
        (fun ev => decide (ev = preduce.Ev.relLazy hh))) ≤ 1) :=
  ⟨fun cutoff ser => prg_spawn_callbacks cutoff ser,
   fun cutoff ser => prg_spawn_migrated cutoff ser,
   fun cutoff ser => prg_relLazy_range cutoff ser,
   fun cutoff ser => prg_relLazy_unique cutoff ser⟩

/-- Witness for C9 on the concrete trace of a two-element range with a
migrated (non-serialized) child. -/
theorem C9_parallel_reduce_dsm_callbacks_witness :
    (preduce.Cb.release = preduce.Cb.release ∧
      ∃ hh, preduce.Cb.acquireH 0 = preduce.Cb.acquireH hh ∧
        (hh = 0 ∨ preduce.Ev.relLazy hh ∈
          ([preduce.Ev.poll, preduce.Ev.tgBegin] : List preduce.Ev))) ∧
    (∃ hh mid2 post2,
      ([preduce.Ev.relLazy 1, preduce.Ev.poll, preduce.Ev.base 1 1, preduce.Ev.rel,
        preduce.Ev.join 0, preduce.Ev.tgEnd, preduce.Ev.acq, preduce.Ev.combine] :
          List preduce.Ev) =
        preduce.Ev.relLazy hh ::
          (mid2 ++ preduce.Ev.rel :: preduce.Ev.join 0 :: post2)) ∧
    ((1 : Nat) ≤ 1 ∧
      1 < ((preduce.parallel_reduce_generic 1 (fun _ => false) 2 0 2 0 ⟨1, 0⟩).2).h) ∧
    ((preduce.parallel_reduce_generic 1 (fun _ => false) 2 0 2 0 ⟨1, 0⟩).1.countP
      (fun ev => decide (ev = preduce.Ev.relLazy 1))) ≤ 1 :=
  ⟨C9_parallel_reduce_dsm_callbacks.1 1 (fun _ => false) 2 0 2 0 ⟨1, 0⟩
      [preduce.Ev.poll, preduce.Ev.tgBegin] 0 (preduce.Cb.acquireH 0) preduce.Cb.release
      [preduce.Ev.relLazy 1, preduce.Ev.poll, preduce.Ev.base 1 1, preduce.Ev.rel,
        preduce.Ev.join 0, preduce.Ev.tgEnd, preduce.Ev.acq, preduce.Ev.combine]
      (by decide),
   C9_parallel_reduce_dsm_callbacks.2.1 1 (fun _ => false) 2 0 2 0 ⟨1, 0⟩
      [preduce.Ev.poll, preduce.Ev.tgBegin] 0 (preduce.Cb.acquireH 0) preduce.Cb.release
      [preduce.Ev.relLazy 1, preduce.Ev.poll, preduce.Ev.base 1 1, preduce.Ev.rel,
        preduce.Ev.join 0, preduce.Ev.tgEnd, preduce.Ev.acq, preduce.Ev.combine]
      (by decide) (by decide),
   C9_parallel_reduce_dsm_callbacks.2.2.1 1 (fun _ => false) 2 0 2 0 ⟨1, 0⟩ 1 (by decide),
   C9_parallel_reduce_dsm_callbacks.2.2.2 1 (fun _ => false) 2 0 2 0 ⟨1, 0⟩ 1⟩

-- Checks of the embedding against the concrete values asserted by the
-- repository's ITYR_TEST_CASE blocks.
example : (mem_mapper.block.mk 65536 (65536 * 14) 4).get_segment (65536 * 5)
    = ⟨1, 65536 * 4, 65536 * 7, 0⟩ := by decide
example : (mem_mapper.block.mk 65536 (65536 * 14) 4).local_size 1 = 65536 * 3 := by decide
example : (mem_mapper.block.mk 65536 1 4).local_size 1 = 65536 := by decide
example : (mem_mapper.cyclic.mk 65536 (131072 * 12) 4 131072).get_segment (131072 * 5 + 2)
    = ⟨1, 131072 * 5, 131072 * 6, 131072⟩ := by decide
example : (mem_mapper.cyclic.mk 65536 (131072 * 12 + 1) 4 131072).local_size 0 = 131072 * 4 := by decide
example : (mem_mapper.block_adws.mk 1 14 4).get_segment 3 = ⟨2, 3, 7, 0⟩ := by decide
example : (mem_mapper.block_adws.mk 1 14 4).local_size 0 = 4 := by decide
example : (mem_mapper.block_adws.mk 1 14 4).local_size 1 = 3 := by decide
